import Mathlib

set_option linter.unusedVariables false

/-! Shallow embedding of the Rush Hour repository core
    (src/rush_objects/base.py and src/rush_objects/core.py):
    the Car and Board model, state (de)serialization, legal-neighbor
    generation, the RushGame problem binding, and the breadth-first
    graph search with a depth cap. -/

/-- Orientation of a car: the source stores it as the string h or v
    (attribute orid, 1 == horizontal, 0 == vertical). -/
inductive Orient where
  | h
  | v
deriving DecidableEq

/-- A grid cell, as a (row, column) pair of integers (numpy int indices). -/
abbrev GridCell := Int × Int

/-- Car (base.py, class Car): color is the identifier, (row, col) the origin
    of the first cell, len the length, ori the orientation.  The source's
    place arrays are determined by these four attributes. -/
structure Car where
  color : String
  row : Int
  col : Int
  len : Nat
  ori : Orient
deriving DecidableEq

/-- The hashable per-car tuple produced by Car.astuple:
    (color, position, length, orientation). -/
abbrev CarTuple := String × (Int × Int) × Nat × Orient

/-- Car.position property: the starting point of the car. -/
def Car.position (c : Car) : Int × Int := (c.row, c.col)

/-- Car.astuple: attributes of the instance as a tuple. -/
def Car.astuple (c : Car) : CarTuple := (c.color, (c.row, c.col), c.len, c.ori)

/-- Rebuild a Car from its astuple (the Car(*item) call in Board.from_state). -/
def Car.ofTuple (t : CarTuple) : Car := ⟨t.1, t.2.1.1, t.2.1.2, t.2.2.1, t.2.2.2⟩

/-- The cells occupied by a car (the source's npindices slice applied to the
    board view): len consecutive cells from the origin along the orientation. -/
def Car.cells (c : Car) : List GridCell :=
  match c.ori with
  | .h => (List.range c.len).map fun i : Nat => (c.row, c.col + (i : Int))
  | .v => (List.range c.len).map fun i : Nat => (c.row + (i : Int), c.col)

/-- The source's place[orid][0]: the first index along the moving axis. -/
def Car.headIdx (c : Car) : Int :=
  match c.ori with
  | .h => c.col
  | .v => c.row

/-- The source's place[orid][-1]: the last index along the moving axis
    (for cars of length at least 1, as all cars in the game are). -/
def Car.lastIdx (c : Car) : Int := c.headIdx + (c.len : Int) - 1

/-- Car.can_move(step, limit) from base.py lines 105-122:
    for step < 0 it requires place[orid][0] + step >= limit,
    otherwise place[orid][-1] + step < limit. -/
def Car.can_move (c : Car) (step limit : Int) : Bool :=
  if step < 0 then decide (limit ≤ c.headIdx + step)
  else decide (c.lastIdx + step < limit)

/-- The effect of Car.__iadd__ d (and of __isub__ with -d): displace the car
    d cells along its own orientation axis. -/
def Car.move (c : Car) (d : Int) : Car :=
  match c.ori with
  | .h => { c with col := c.col + d }
  | .v => { c with row := c.row + d }

/-- The single cell a unit slide by d newly enters: the cell just beyond
    the leading end of the car in the direction of the move. -/
def Car.freshCell (c : Car) (d : Int) : GridCell :=
  match c.ori with
  | .h => if d < 0 then (c.row, c.col + d) else (c.row, c.col + (c.len : Int) - 1 + d)
  | .v => if d < 0 then (c.row + d, c.col) else (c.row + (c.len : Int) - 1 + d, c.col)

/-- The hashable board state returned by Board.get_state:
    (size, exitrow, car tuples in insertion order). -/
structure BoardState where
  size : Nat
  exitrow : Int
  cars : List CarTuple
deriving DecidableEq

/-- Board (base.py, class Board): square size, exit row, the OrderedDict of
    cars (modelled as the insertion-ordered list), and the occupancy view
    (modelled as the list of cells currently marked 1). -/
structure Board where
  size : Nat
  exitrow : Int
  cars : List Car
  view : List GridCell
deriving DecidableEq

/-- Board.__init__: empty view, no cars. -/
def Board.empty (size : Nat) (exitrow : Int) : Board := ⟨size, exitrow, [], []⟩

/-- The cars.get(color, False) == False test of insert_car: a car of this
    color is already present. -/
def Board.hasColor (b : Board) (color : String) : Bool := b.cars.any fun c => c.color = color

/-- The two ValueError cases of Board.insert_car: the placement conflict
    ("Unable to place the car") and the duplicate color. -/
inductive InsertError where
  | placement
  | duplicate
deriving DecidableEq

/-- Board.insert_car as executed (base.py lines 202-213): the returned board
    is the board as left after the call, together with the raised error if
    any.  The overlap test is checked first; both error paths raise before
    any mutation of cars or view. -/
def Board.insert_car_run (b : Board) (color : String) (pos : Int × Int) (len : Nat) (ori : Orient) : Board × Option InsertError :=
  let car : Car := ⟨color, pos.1, pos.2, len, ori⟩
  if car.cells.all fun x => decide (x ∉ b.view) then
    if b.hasColor color then (b, some InsertError.duplicate)
    else ({ b with cars := b.cars ++ [car], view := b.view ++ car.cells }, none)
  else (b, some InsertError.placement)

/-- Board.insert_car as a partial function: some board on success, none when
    a ValueError is raised. -/
def Board.insert_car (b : Board) (color : String) (pos : Int × Int) (len : Nat) (ori : Orient) : Option Board :=
  match b.insert_car_run color pos len ori with
  | (b2, none) => some b2
  | (_, some _) => none

/-- Board.get_state (base.py lines 215-218). -/
def Board.get_state (b : Board) : BoardState := ⟨b.size, b.exitrow, b.cars.map Car.astuple⟩

/-- The loop of Board.from_state: insert every car tuple in order, failing
    if any insertion raises. -/
def Board.insertAll (b : Board) : List CarTuple → Option Board
  | [] => some b
  | t :: ts =>
    match b.insert_car t.1 t.2.1 t.2.2.1 t.2.2.2 with
    | some b2 => b2.insertAll ts
    | none => none

/-- Board.from_state (base.py lines 238-245). -/
def Board.from_state (s : BoardState) : Option Board := (Board.empty s.size s.exitrow).insertAll s.cars

/-- A board obtained from Board.__init__ by a sequence of successful
    insert_car calls (equivalently, a board some Board.from_state returns). -/
def Board.WellBuilt (b : Board) : Prop :=
  ∃ l : List CarTuple, Board.from_state ⟨b.size, b.exitrow, l⟩ = some b

/-- Writing back the car of index i (the self.cars[color] slot) after a
    displacement; the view is left untouched, exactly as in
    connected_states ("Move the car without changing the view"). -/
def Board.setCar (b : Board) (i : Nat) (c : Car) : Board := { b with cars := b.cars.set i c }

/-- The view[x] == 0 test on the occupancy view. -/
def Board.viewFree (b : Board) (x : GridCell) : Bool := decide (x ∉ b.view)

/-- One (car, displacement) probe of the connected_states loop
    (base.py lines 223-234): if the car can move, slide it (without touching
    the view), record the state when np.any(view[new indices] == 0), then
    unconditionally slide it back.  Returns the board as left by the probe
    together with the recorded states. -/
def Board.tryMove (b : Board) (i : Nat) (d limit : Int) : Board × List BoardState :=
  match b.cars[i]? with
  | none => (b, [])
  | some c =>
    if c.can_move d limit then
      let b1 := b.setCar i (c.move d)
      let out := if (c.move d).cells.any fun x => b1.viewFree x then [b1.get_state] else []
      (b1.setCar i ((c.move d).move (-d)), out)
    else (b, [])

/-- Board.connected_states as executed (base.py lines 220-236): iterate over
    the cars in insertion order, probing displacement -1 with boardlimit 0
    and displacement +1 with boardlimit view.shape[0]; the final board and
    the accumulated states are returned. -/
def Board.connected_states_run (b : Board) : Board × List BoardState :=
  (List.range b.cars.length).foldl
    (fun acc i =>
      let r1 := acc.1.tryMove i (-1) 0
      let r2 := r1.1.tryMove i 1 (r1.1.size : Int)
      (r2.1, acc.2 ++ (r1.2 ++ r2.2)))
    (b, [])

/-- The value of the connected_states property: the tuple of neighbor states. -/
def Board.connected_states (b : Board) : List BoardState := b.connected_states_run.2

/-- The self.cars[color] OrderedDict lookup (first, and in well-built boards
    only, car of that color). -/
def Board.findCar (b : Board) (color : String) : Option Car := b.cars.find? fun c => c.color = color

/-- RushGame (core.py lines 221-312): the problem binding of a board with a
    target car and the precomputed goal position self.target. -/
structure RushGame where
  initial : Board
  target_car : String
  target : Int × Int
deriving DecidableEq

/-- RushGame.__init__ on a Board argument (core.py lines 236-256): rebuild
    the board from its state, then validate the target car; none models the
    ValueError paths (target absent, not on the exit row, not horizontal). -/
def RushGame.init (board : Board) (target : String) : Option RushGame :=
  match Board.from_state board.get_state with
  | none => none
  | some initial =>
    match initial.findCar target with
    | none => none
    | some car =>
      if car.position.1 ≠ initial.exitrow then none
      else if car.ori ≠ Orient.h then none
      else some ⟨initial, target, (initial.exitrow, (initial.size : Int) - (car.len : Int))⟩

/-- The state stored as Problem.initial: self.initial.get_state(). -/
def RushGame.problem_initial (g : RushGame) : BoardState := g.initial.get_state

/-- RushGame.actions (core.py lines 258-274): rebuild a board from the state
    and return its connected states.  On a state from_state cannot rebuild
    the source would raise; the [] branch is never taken on game states. -/
def RushGame.actions (g : RushGame) (s : BoardState) : List BoardState :=
  match Board.from_state s with
  | some board => board.connected_states
  | none => []

/-- RushGame.goal_test (core.py lines 297-302): rebuild the board and compare
    the target car's position with self.target; none models the exceptions
    raised on states that cannot be rebuilt or miss the target car. -/
def RushGame.goal_test (g : RushGame) (s : BoardState) : Option Bool :=
  match Board.from_state s with
  | none => none
  | some board =>
    match board.findCar g.target_car with
    | none => none
    | some car => some (decide (car.position = g.target))

/-- The goal predicate as used by the search on game states (where goal_test
    never raises). -/
def RushGame.goalB (g : RushGame) (s : BoardState) : Bool := (g.goal_test s).getD false

/-- Node (core.py lines 68-121) restricted to the fields the search result
    exposes: the state, path_cost (c+1 per edge) and depth (parent.depth+1). -/
structure SearchNode (σ : Type) where
  state : σ
  path_cost : Nat
  depth : Nat
deriving DecidableEq

/-- The result value of breadth_first_graph_search: a goal Node, or the
    single Python value False returned on both failure paths. -/
inductive BFSResult (σ : Type) where
  | found : SearchNode σ → BFSResult σ
  | failure : BFSResult σ
deriving DecidableEq

/-- The inner for-loop of breadth_first_graph_search (core.py lines 204-209):
    walk the children of the dequeued node n; skip a child whose state is in
    explored or already on the frontier (Node equality is state equality);
    return a goal child at once; otherwise append it to the frontier. -/
def expandChildren {σ : Type} [DecidableEq σ] (G : σ → Bool) (explored : List σ) (n : SearchNode σ) : List σ → List (SearchNode σ) → SearchNode σ ⊕ List (SearchNode σ)
  | [], frontier => Sum.inr frontier
  | c :: cs, frontier =>
    if c ∈ explored ∨ c ∈ frontier.map SearchNode.state then expandChildren G explored n cs frontier
    else if G c then Sum.inl ⟨c, n.path_cost + 1, n.depth + 1⟩
    else expandChildren G explored n cs (frontier ++ [⟨c, n.path_cost + 1, n.depth + 1⟩])

/-- The while-loop of breadth_first_graph_search (core.py lines 200-219),
    with a fuel argument standing for the (in Python implicit) finiteness of
    the run: none means the fuel ran out before the loop returned.  The
    dequeued node's state is added to explored before expansion; the depth
    cap is tested after the expansion and aborts the whole search. -/
def bfsAux {σ : Type} [DecidableEq σ] (A : σ → List σ) (G : σ → Bool) (max_depth : Nat) : Nat → List (SearchNode σ) → List σ → Option (BFSResult σ)
  | 0, _, _ => none
  | _ + 1, [], _ => some BFSResult.failure
  | fuel + 1, n :: rest, explored =>
    let exp2 := n.state :: explored
    match expandChildren G exp2 n (A n.state) rest with
    | Sum.inl child => some (BFSResult.found child)
    | Sum.inr frontier2 =>
      if n.depth = max_depth then some BFSResult.failure
      else bfsAux A G max_depth fuel frontier2 exp2

/-- breadth_first_graph_search (core.py lines 189-219): the root node is
    returned at once when the initial state already satisfies the goal,
    otherwise the loop runs on the singleton frontier. -/
def breadth_first_graph_search {σ : Type} [DecidableEq σ] (A : σ → List σ) (G : σ → Bool) (max_depth fuel : Nat) (init : σ) : Option (BFSResult σ) :=
  if G init then some (BFSResult.found ⟨init, 0, 0⟩)
  else bfsAux A G max_depth fuel [⟨init, 0, 0⟩] []

/-- A car's occupied cells all lie within the size-by-size board. -/
def Car.InBounds (c : Car) (size : Nat) : Prop :=
  ∀ x ∈ c.cells, 0 ≤ x.1 ∧ x.1 < (size : Int) ∧ 0 ≤ x.2 ∧ x.2 < (size : Int)

/-- Two cars occupy no common cell. -/
def Disj (c1 c2 : Car) : Prop := ∀ x ∈ c1.cells, x ∉ c2.cells

/-- All distinct cars of the list are pairwise non-overlapping. -/
def CarsOK (cars : List Car) : Prop :=
  ∀ i (hi : i < cars.length), ∀ j (hj : j < cars.length), i ≠ j → Disj cars[i] cars[j]

/-- The occupancy view is exactly the union of the cars' occupied cells
    (the "no drift" invariant of the spec). -/
def Board.ViewConsistent (b : Board) : Prop :=
  (∀ x ∈ b.view, ∃ c ∈ b.cars, x ∈ c.cells) ∧ (∀ c ∈ b.cars, ∀ x ∈ c.cells, x ∈ b.view)

instance carInBoundsDecidable (c : Car) (n : Nat) : Decidable (c.InBounds n) := by
  unfold Car.InBounds
  infer_instance

instance disjDecidable (c1 c2 : Car) : Decidable (Disj c1 c2) := by
  unfold Disj
  infer_instance

instance carsOKDecidable (l : List Car) : Decidable (CarsOK l) := by
  unfold CarsOK
  infer_instance

instance viewConsistentDecidable (b : Board) : Decidable b.ViewConsistent := by
  unfold Board.ViewConsistent
  infer_instance

/-- A path of n legal moves in the implicit graph given by the successor
    function A: Reaches A s u n means u is reachable from s in exactly n
    steps. -/
inductive Reaches {σ : Type} (A : σ → List σ) : σ → σ → Nat → Prop where
  | refl (s : σ) : Reaches A s s 0
  | step {s t u : σ} {n : Nat} : t ∈ A s → Reaches A t u n → Reaches A s u (n + 1)

/-- All states reachable from r in at most m steps (with repetitions). -/
def reachList {σ : Type} (A : σ → List σ) (r : σ) : Nat → List σ
  | 0 => [r]
  | m + 1 => reachList A r m ++ (reachList A r m).foldl (fun acc s => acc ++ A s) []

/-- The per-car, per-direction contribution of the connected_states loop. -/
def Board.moveStates (b : Board) (i : Nat) : List BoardState :=
  (b.tryMove i (-1) 0).2 ++ (b.tryMove i 1 (b.size : Int)).2

/-- The states held by a frontier of search nodes. -/
def statesOf {σ : Type} (F : List (SearchNode σ)) : List σ := F.map SearchNode.state

/-- The loop invariant of breadth_first_graph_search, for root state r and
    depth cap md: frontier nodes carry their true minimal distance as depth
    and cost, explored and frontier states are non-goals and pairwise
    distinct, frontier depths are nondecreasing and within one layer,
    children of explored states are discovered, and every state reachable
    in fewer steps than the head's depth is already explored. -/
structure BfsInv {σ : Type} (A : σ → List σ) (G : σ → Bool) (md : Nat) (r : σ)
    (F : List (SearchNode σ)) (E : List σ) : Prop where
  reach_depth : ∀ nd ∈ F, Reaches A r nd.state nd.depth
  min_depth : ∀ nd ∈ F, ∀ k, Reaches A r nd.state k → nd.depth ≤ k
  pc_eq : ∀ nd ∈ F, nd.path_cost = nd.depth
  f_nogoal : ∀ nd ∈ F, G nd.state = false
  f_bound : ∀ nd ∈ F, nd.depth ≤ md
  e_nogoal : ∀ s ∈ E, G s = false
  e_reach : ∀ s ∈ E, ∃ k, Reaches A r s k ∧ k ≤ md
  sorted_f : F.Pairwise fun a b => a.depth ≤ b.depth
  twolayer : ∀ h t, F = h :: t → ∀ nd ∈ F, nd.depth ≤ h.depth + 1
  f_nodup : (statesOf F).Nodup
  e_nodup : E.Nodup
  f_not_e : ∀ nd ∈ F, nd.state ∉ E
  closure : ∀ s ∈ E, ∀ t ∈ A s, t ∈ E ∨ t ∈ statesOf F
  root_in : r ∈ E ∨ r ∈ statesOf F
  layer_lt : ∀ h t, F = h :: t → ∀ s k, Reaches A r s k → k < h.depth → s ∈ E
  layer_eq : ∀ h t, F = h :: t → ∀ s k, Reaches A r s k → k = h.depth → s ∈ E ∨ s ∈ statesOf F

/-- What BFS optimality promises of a returned node: it is a goal, its
    path_cost is its depth, that many moves really reach it, and no goal
    state is reachable in fewer moves. -/
def GoodNode {σ : Type} (A : σ → List σ) (G : σ → Bool) (r : σ) (nd : SearchNode σ) : Prop :=
  G nd.state = true ∧ nd.path_cost = nd.depth ∧ Reaches A r nd.state nd.path_cost ∧
    ∀ g k, G g = true → Reaches A r g k → nd.path_cost ≤ k

/-- Color identifiers used by the concrete example boards. -/
def colorRed : String := "red"

/-- Second color identifier for the example boards. -/
def colorBlue : String := "blue"

/-- A 2 by 2 board with exit row 0 holding the single horizontal length-1
    red car at the origin (as built by insert_car). -/
def exBoard1 : Board := ⟨2, 0, [⟨colorRed, 0, 0, 1, Orient.h⟩], [(0, 0)]⟩

/-- A packed, unsolvable 2 by 2 board: the red car at (0,0) and a vertical
    blue car of length 2 blocking column 1. -/
def exBoard2 : Board := ⟨2, 0, [⟨colorRed, 0, 0, 1, Orient.h⟩, ⟨colorBlue, 0, 1, 2, Orient.v⟩], [(0, 0), (0, 1), (1, 1)]⟩

/-- A 3 by 3 board with the red car at the origin, two moves from its goal. -/
def exBoard3 : Board := ⟨3, 0, [⟨colorRed, 0, 0, 1, Orient.h⟩], [(0, 0)]⟩

/-- The RushGame on exBoard1 (the value RushGame.init returns for it). -/
def exGame1 : RushGame := ⟨exBoard1, colorRed, (0, 1)⟩

/-- The RushGame on the packed board exBoard2. -/
def exGame2 : RushGame := ⟨exBoard2, colorRed, (0, 1)⟩

/-- The RushGame on exBoard3. -/
def exGame3 : RushGame := ⟨exBoard3, colorRed, (0, 2)⟩

/-! Basic lemmas about the car and board operations. -/

/-- Sliding a car by d and then by -d restores the car exactly
    (the unconditional undo of connected_states). -/
theorem Car.move_move_neg (c : Car) (d : Int) : (c.move d).move (-d) = c := by
  cases c with
  | mk color row col len ori => cases ori <;> simp [Car.move]

/-- Writing an element back to the position it was read from leaves the
    list unchanged. -/
theorem list_set_self {α : Type} {l : List α} {i : Nat} {a : α} (h : l[i]? = some a) :
    l.set i a = l := by
  induction l generalizing i with
  | nil => simp at h
  | cons x xs ih =>
    cases i with
    | zero =>
      simp at h
      simp [h]
    | succ n =>
      simp at h
      simp [List.set]
      exact ih h

/-- setCar leaves the occupancy view untouched. -/
theorem Board.setCar_view (b : Board) (i : Nat) (c : Car) : (b.setCar i c).view = b.view := rfl

/-- setCar leaves the size untouched. -/
theorem Board.setCar_size (b : Board) (i : Nat) (c : Car) : (b.setCar i c).size = b.size := rfl

/-- A single probe of connected_states hands back the board unchanged:
    the virtual slide is always undone. -/
theorem Board.tryMove_fst (b : Board) (i : Nat) (d limit : Int) : (b.tryMove i d limit).1 = b := by
  unfold Board.tryMove
  cases h : b.cars[i]? with
  | none => rfl
  | some c =>
    by_cases hm : c.can_move d limit
    · simp only [hm, if_true]
      show (b.setCar i (c.move d)).setCar i ((c.move d).move (-d)) = b
      unfold Board.setCar
      simp only [List.set_set, Car.move_move_neg, list_set_self h]
    · simp [hm]

theorem Board.connected_states_run_eq (b : Board) :
    b.connected_states_run = (b, ((List.range b.cars.length).map b.moveStates).flatten) := by
  unfold Board.connected_states_run
  have H : ∀ (l : List Nat) (s0 : List BoardState),
      (l.foldl (fun acc i =>
        let r1 := acc.1.tryMove i (-1) 0
        let r2 := r1.1.tryMove i 1 (r1.1.size : Int)
        (r2.1, acc.2 ++ (r1.2 ++ r2.2))) (b, s0)) = (b, s0 ++ (l.map b.moveStates).flatten) := by
    intro l
    induction l with
    | nil => intro s0; simp
    | cons x xs ih =>
      intro s0
      rw [List.foldl_cons]
      have hstep : (let r1 := b.tryMove x (-1) 0
          let r2 := r1.1.tryMove x 1 (r1.1.size : Int)
          ((r2.1, s0 ++ (r1.2 ++ r2.2)) : Board × List BoardState)) = (b, s0 ++ b.moveStates x) := by
        show ((((b.tryMove x (-1) 0).1.tryMove x 1 (((b.tryMove x (-1) 0).1.size) : Int)).1),
            s0 ++ ((b.tryMove x (-1) 0).2 ++ ((b.tryMove x (-1) 0).1.tryMove x 1 (((b.tryMove x (-1) 0).1.size) : Int)).2)) = (b, s0 ++ b.moveStates x)
        rw [Board.tryMove_fst b x (-1) 0, Board.tryMove_fst]
        rfl
      rw [hstep, ih]
      simp
  have h2 := H (List.range b.cars.length) []
  simpa using h2

/-- The board is unchanged by evaluating connected_states. -/
theorem Board.connected_states_run_fst (b : Board) : b.connected_states_run.1 = b := by
  rw [Board.connected_states_run_eq]

/-- Membership in connected_states, unfolded to the per-car probes. -/
theorem Board.mem_connected_states {b : Board} {s : BoardState} :
    s ∈ b.connected_states ↔ ∃ i, i < b.cars.length ∧ s ∈ b.moveStates i := by
  unfold Board.connected_states
  rw [Board.connected_states_run_eq]
  simp only [List.mem_flatten, List.mem_map]
  constructor
  · rintro ⟨l, ⟨i, hi, rfl⟩, hs⟩
    exact ⟨i, List.mem_range.mp hi, hs⟩
  · rintro ⟨i, hi, hs⟩
    exact ⟨b.moveStates i, ⟨i, List.mem_range.mpr hi, rfl⟩, hs⟩

/-- What a successful probe records: the state of the board with car i
    virtually slid by d. -/
theorem Board.mem_tryMove_snd {b : Board} {i : Nat} {d limit : Int} {s : BoardState} :
    s ∈ (b.tryMove i d limit).2 ↔
      ∃ c, b.cars[i]? = some c ∧ c.can_move d limit = true ∧
        ((c.move d).cells.any fun x => b.viewFree x) = true ∧
        s = (b.setCar i (c.move d)).get_state := by
  cases h : b.cars[i]? with
  | none => simp [Board.tryMove, h]
  | some c =>
    simp only [Board.tryMove, h]
    by_cases hm : c.can_move d limit = true
    · rw [if_pos hm]
      have hview : ∀ x, (b.setCar i (c.move d)).viewFree x = b.viewFree x := fun x => rfl
      by_cases hchk : ((c.move d).cells.any fun x => b.viewFree x) = true
      · simp only [hview, hchk, if_true, List.mem_singleton]
        constructor
        · intro hs
          exact ⟨c, rfl, hm, hchk, hs⟩
        · rintro ⟨c2, hc2, _, _, hs⟩
          cases hc2
          exact hs
      · simp only [hview]
        rw [if_neg hchk]
        simp only [List.not_mem_nil, false_iff]
        rintro ⟨c2, hc2, _, hchk2, _⟩
        cases hc2
        exact hchk hchk2
    · rw [if_neg hm]
      simp only [List.not_mem_nil, false_iff]
      rintro ⟨c2, hc2, hm2, _, _⟩
      cases hc2
      exact hm hm2

/-! Insertion and round-trip lemmas. -/

theorem Board.insert_car_run_placement {b : Board} {color : String} {pos : Int × Int} {len : Nat} {ori : Orient}
    (h1 : ¬ ((Car.mk color pos.1 pos.2 len ori).cells.all fun x => decide (x ∉ b.view)) = true) :
    b.insert_car_run color pos len ori = (b, some InsertError.placement) := by
  unfold Board.insert_car_run
  rw [if_neg h1]

theorem Board.insert_car_run_duplicate {b : Board} {color : String} {pos : Int × Int} {len : Nat} {ori : Orient}
    (h1 : ((Car.mk color pos.1 pos.2 len ori).cells.all fun x => decide (x ∉ b.view)) = true)
    (h2 : b.hasColor color = true) :
    b.insert_car_run color pos len ori = (b, some InsertError.duplicate) := by
  unfold Board.insert_car_run
  rw [if_pos h1, if_pos h2]

theorem Board.insert_car_run_success {b : Board} {color : String} {pos : Int × Int} {len : Nat} {ori : Orient}
    (h1 : ((Car.mk color pos.1 pos.2 len ori).cells.all fun x => decide (x ∉ b.view)) = true)
    (h2 : ¬ b.hasColor color = true) :
    b.insert_car_run color pos len ori =
      ({ b with
          cars := b.cars ++ [⟨color, pos.1, pos.2, len, ori⟩],
          view := b.view ++ (Car.mk color pos.1 pos.2 len ori).cells }, none) := by
  unfold Board.insert_car_run
  rw [if_pos h1, if_neg h2]

/-- A successful insert_car appends the new car and marks its cells. -/
theorem Board.insert_car_some {b b2 : Board} {color : String} {pos : Int × Int} {len : Nat} {ori : Orient}
    (h : b.insert_car color pos len ori = some b2) :
    b2.size = b.size ∧ b2.exitrow = b.exitrow ∧
      b2.cars = b.cars ++ [⟨color, pos.1, pos.2, len, ori⟩] ∧
      b2.view = b.view ++ (Car.mk color pos.1 pos.2 len ori).cells := by
  unfold Board.insert_car at h
  by_cases h1 : ((Car.mk color pos.1 pos.2 len ori).cells.all fun x => decide (x ∉ b.view)) = true
  · by_cases h2 : b.hasColor color = true
    · rw [Board.insert_car_run_duplicate h1 h2] at h
      cases h
    · rw [Board.insert_car_run_success h1 h2] at h
      cases h
      exact ⟨rfl, rfl, rfl, rfl⟩

  · rw [Board.insert_car_run_placement h1] at h
    cases h

/-- Rebuilding the tuple of a rebuilt car gives the tuple back. -/
theorem Car.astuple_ofTuple (t : CarTuple) : (Car.ofTuple t).astuple = t := by
  obtain ⟨a, ⟨r, c⟩, l, o⟩ := t
  rfl

/-- Rebuilding the car of an astuple gives the car back. -/
theorem Car.ofTuple_astuple (c : Car) : Car.ofTuple c.astuple = c := rfl

/-- A successful insertAll appends exactly the cars of the inserted tuples. -/
theorem Board.insertAll_some : ∀ {l : List CarTuple} {b b2 : Board}, b.insertAll l = some b2 →
    b2.size = b.size ∧ b2.exitrow = b.exitrow ∧ b2.cars = b.cars ++ l.map Car.ofTuple := by
  intro l
  induction l with
  | nil =>
    intro b b2 h
    cases h
    exact ⟨rfl, rfl, by simp⟩
  | cons t ts ih =>
    intro b b2 h
    unfold Board.insertAll at h
    cases hi : b.insert_car t.1 t.2.1 t.2.2.1 t.2.2.2 with
    | none => rw [hi] at h; cases h
    | some b1 =>
      rw [hi] at h
      obtain ⟨hs, he, hc⟩ := ih h
      obtain ⟨hs2, he2, hc2, _⟩ := Board.insert_car_some hi
      refine ⟨hs.trans hs2, he.trans he2, ?_⟩
      rw [hc, hc2]
      simp [Car.ofTuple]

/-- Serializing a list of rebuilt cars gives the original tuples back. -/
theorem map_astuple_ofTuple (l : List CarTuple) : l.map (Car.astuple ∘ Car.ofTuple) = l := by
  induction l with
  | nil => rfl
  | cons t ts ih => simp only [List.map_cons, Function.comp_apply, Car.astuple_ofTuple, ih]

theorem Board.get_state_from_state {s : BoardState} {b : Board} (h : Board.from_state s = some b) :
    b.get_state = s := by
  unfold Board.from_state at h
  obtain ⟨h1, h2, h3⟩ := Board.insertAll_some h
  obtain ⟨ssize, sexit, scars⟩ := s
  unfold Board.get_state
  rw [h1, h2, h3]
  simp [Board.empty, map_astuple_ofTuple]

/-- C3: for every board built by a sequence of successful insert_car calls,
    Board.from_state(B.get_state()) succeeds and its get_state() equals
    B.get_state(): serialization round-trips, preserving size, exit row and
    the per-vehicle tuples in insertion order. -/
theorem C3_from_state_get_state_roundtrip (b : Board) (hb : b.WellBuilt) :
    ∃ b2, Board.from_state b.get_state = some b2 ∧ b2.get_state = b.get_state := by
  obtain ⟨l, hl⟩ := hb
  have hs := Board.get_state_from_state hl
  refine ⟨b, ?_, rfl⟩
  rw [hs]
  exact hl

/-- Witness for C3 at the concrete one-car board exBoard1. -/
theorem C3_from_state_get_state_roundtrip_witness :
    exBoard1.WellBuilt ∧
      ∃ b2, Board.from_state exBoard1.get_state = some b2 ∧ b2.get_state = exBoard1.get_state :=
  ⟨⟨[(colorRed, (0, 0), 1, Orient.h)], by decide⟩,
   C3_from_state_get_state_roundtrip exBoard1 ⟨[(colorRed, (0, 0), 1, Orient.h)], by decide⟩⟩

/-- C4: evaluating connected_states leaves the board unchanged: the cars,
    the occupancy view and the serialized state are exactly as before the
    call, because every virtual slide is unconditionally undone. -/
theorem C4_connected_states_leaves_board_unchanged (b : Board) :
    b.connected_states_run.1 = b ∧ b.connected_states_run.1.cars = b.cars ∧
      b.connected_states_run.1.view = b.view ∧
      b.connected_states_run.1.get_state = b.get_state := by
  have h := Board.connected_states_run_fst b
  exact ⟨h, by rw [h], by rw [h], by rw [h]⟩

/-- C9: whenever insert_car raises (placement conflict or duplicate color),
    the board is left exactly as it was: cars and occupancy view unchanged. -/
theorem C9_insert_car_failure_leaves_board (b : Board) (color : String) (pos : Int × Int) (len : Nat) (ori : Orient)
    (h : (b.insert_car_run color pos len ori).2.isSome = true) :
    (b.insert_car_run color pos len ori).1 = b ∧
      (b.insert_car_run color pos len ori).1.cars = b.cars ∧
      (b.insert_car_run color pos len ori).1.view = b.view := by
  by_cases h1 : ((Car.mk color pos.1 pos.2 len ori).cells.all fun x => decide (x ∉ b.view)) = true
  · by_cases h2 : b.hasColor color = true
    · rw [Board.insert_car_run_duplicate h1 h2]
      exact ⟨rfl, rfl, rfl⟩
    · rw [Board.insert_car_run_success h1 h2] at h
      exact Bool.noConfusion h
  · rw [Board.insert_car_run_placement h1]
    exact ⟨rfl, rfl, rfl⟩

/-- Witness for C9: re-inserting the red color on exBoard1 raises, and the
    board is unchanged. -/
theorem C9_insert_car_failure_leaves_board_witness :
    ((exBoard1.insert_car_run colorRed (1, 0) 1 Orient.v).2.isSome = true) ∧
      ((exBoard1.insert_car_run colorRed (1, 0) 1 Orient.v).1 = exBoard1 ∧
        (exBoard1.insert_car_run colorRed (1, 0) 1 Orient.v).1.cars = exBoard1.cars ∧
        (exBoard1.insert_car_run colorRed (1, 0) 1 Orient.v).1.view = exBoard1.view) :=
  ⟨by decide, C9_insert_car_failure_leaves_board exBoard1 colorRed (1, 0) 1 Orient.v (by decide)⟩

/-- Sliding car i by a nonzero displacement changes the serialized state. -/
theorem Board.setCar_move_get_state_ne {b : Board} {i : Nat} {c : Car} (hc : b.cars[i]? = some c)
    {d : Int} (hd : d ≠ 0) :
    (b.setCar i (c.move d)).get_state ≠ b.get_state := by
  intro he
  have h3 : ((b.cars.set i (c.move d)).map Car.astuple) = b.cars.map Car.astuple :=
    congrArg BoardState.cars he
  rw [List.map_set] at h3
  have hi : i < b.cars.length := (List.getElem?_eq_some.mp hc).1
  have hlen : i < (b.cars.map Car.astuple).length := by simpa using hi
  have h4 : ((b.cars.map Car.astuple).set i ((c.move d).astuple))[i]? = some ((c.move d).astuple) := by
    rw [List.getElem?_set]
    simp [hlen, hi]
  have h5 : (b.cars.map Car.astuple)[i]? = some c.astuple := by
    rw [List.getElem?_map, hc]
    rfl
  rw [h3, h5] at h4
  have h6 := Option.some.inj h4
  cases c with
  | mk color row col len ori =>
    cases ori
    · simp [Car.move, Car.astuple] at h6
      omega
    · simp [Car.move, Car.astuple] at h6
      omega

/-- C10: on a board with in-bounds, pairwise non-overlapping cars, the
    board's own state never appears among its connected states: every
    neighbor moves one car by one cell, hence differs from get_state(). -/
theorem C10_neighbors_differ_from_state (b : Board)
    (hbnd : ∀ c ∈ b.cars, Car.InBounds c b.size) (hdisj : CarsOK b.cars) :
    ∀ s ∈ b.connected_states, s ≠ b.get_state := by
  intro s hs
  obtain ⟨i, hi, hms⟩ := Board.mem_connected_states.mp hs
  unfold Board.moveStates at hms
  rcases List.mem_append.mp hms with hmem | hmem
  · obtain ⟨c, hc, hcm, hchk, rfl⟩ := Board.mem_tryMove_snd.mp hmem
    exact Board.setCar_move_get_state_ne hc (by omega)
  · obtain ⟨c, hc, hcm, hchk, rfl⟩ := Board.mem_tryMove_snd.mp hmem
    exact Board.setCar_move_get_state_ne hc (by omega)

/-- Witness for C10 at the concrete board exBoard1. -/
theorem C10_neighbors_differ_from_state_witness :
    (∀ c ∈ exBoard1.cars, Car.InBounds c exBoard1.size) ∧ CarsOK exBoard1.cars ∧
      ∀ s ∈ exBoard1.connected_states, s ≠ exBoard1.get_state :=
  ⟨by decide, by decide,
   C10_neighbors_differ_from_state exBoard1 (by decide) (by decide)⟩

/-! Puzzle construction and goal test. -/

/-- A well-built board is rebuilt exactly by from_state of its own state. -/
theorem Board.from_state_get_state {b : Board} (hb : b.WellBuilt) :
    Board.from_state b.get_state = some b := by
  obtain ⟨l, hl⟩ := hb
  rw [Board.get_state_from_state hl]
  exact hl

/-- C6: for a (well-built) board, constructing the RushGame raises an error
    if and only if the target id is absent, or the target car is not
    horizontal, or its row differs from the exit row; when all three
    conditions hold the construction succeeds. -/
theorem C6_rushgame_validation (b : Board) (hb : b.WellBuilt) (tname : String) :
    (RushGame.init b tname).isSome = true ↔
      ∃ car, b.findCar tname = some car ∧ car.ori = Orient.h ∧ car.row = b.exitrow := by
  unfold RushGame.init
  rw [Board.from_state_get_state hb]
  cases hf : b.findCar tname with
  | none => simp [hf]
  | some car =>
    simp only [hf]
    by_cases hrow : car.position.1 ≠ b.exitrow
    · rw [if_pos hrow]
      simp only [Option.isSome_none, Bool.false_eq_true, false_iff]
      rintro ⟨car2, hcar2, hori2, hrow2⟩
      cases hcar2
      exact hrow (by simpa [Car.position] using hrow2)
    · rw [if_neg hrow]
      by_cases hori : car.ori ≠ Orient.h
      · rw [if_pos hori]
        simp only [Option.isSome_none, Bool.false_eq_true, false_iff]
        rintro ⟨car2, hcar2, hori2, hrow2⟩
        cases hcar2
        exact hori hori2
      · rw [if_neg hori]
        simp only [Option.isSome_some, true_iff]
        refine ⟨car, rfl, by simpa using hori, ?_⟩
        have h2 : car.position.1 = b.exitrow := by simpa using hrow
        simpa [Car.position] using h2

/-- Witness for C6 at the concrete board exBoard1 with target red. -/
theorem C6_rushgame_validation_witness :
    exBoard1.WellBuilt ∧
      ((RushGame.init exBoard1 colorRed).isSome = true ↔
        ∃ car, exBoard1.findCar colorRed = some car ∧ car.ori = Orient.h ∧ car.row = exBoard1.exitrow) :=
  ⟨⟨[(colorRed, (0, 0), 1, Orient.h)], by decide⟩,
   C6_rushgame_validation exBoard1 ⟨[(colorRed, (0, 0), 1, Orient.h)], by decide⟩ colorRed⟩

/-- What a successful RushGame construction guarantees: the stored target
    car name, the rebuilt initial board, and the precomputed goal position
    (exit row, size minus target length). -/
theorem RushGame.init_some {b : Board} {tname : String} {g : RushGame}
    (hg : RushGame.init b tname = some g) :
    g.target_car = tname ∧ Board.from_state b.get_state = some g.initial ∧
      ∃ car, g.initial.findCar tname = some car ∧ car.ori = Orient.h ∧
        car.position.1 = g.initial.exitrow ∧
        g.target = (g.initial.exitrow, (g.initial.size : Int) - (car.len : Int)) := by
  unfold RushGame.init at hg
  cases hfs : Board.from_state b.get_state with
  | none => rw [hfs] at hg; cases hg
  | some initial =>
    simp only [hfs] at hg
    cases hf : initial.findCar tname with
    | none => rw [hf] at hg; cases hg
    | some car =>
      simp only [hf] at hg
      by_cases hrow : car.position.1 ≠ initial.exitrow
      · rw [if_pos hrow] at hg
        cases hg
      · rw [if_neg hrow] at hg
        by_cases hori : car.ori ≠ Orient.h
        · rw [if_pos hori] at hg
          cases hg
        · rw [if_neg hori] at hg
          cases hg
          refine ⟨rfl, rfl, car, hf, by simpa using hori, by simpa using hrow, rfl⟩

/-- goal_test evaluated on a rebuildable state holding the target car. -/
theorem RushGame.goal_test_eq {g : RushGame} {s : BoardState} {sb : Board} {car : Car}
    (hsb : Board.from_state s = some sb) (hcar : sb.findCar g.target_car = some car) :
    g.goal_test s = some (decide (car.position = g.target)) := by
  simp only [RushGame.goal_test, hsb, hcar]

/-- C7: on every state that from_state can rebuild and that contains the
    target car, goal_test is true exactly when that car's origin equals
    (exit row, size minus target length), the target length being the
    length of the target car validated at construction. -/
theorem C7_goal_test_iff (b : Board) (tname : String) (g : RushGame)
    (hg : RushGame.init b tname = some g) (s : BoardState) (sb : Board) (car car0 : Car)
    (hsb : Board.from_state s = some sb) (hcar : sb.findCar g.target_car = some car)
    (hcar0 : g.initial.findCar g.target_car = some car0) :
    g.goal_test s = some true ↔
      car.position = (g.initial.exitrow, (g.initial.size : Int) - (car0.len : Int)) := by
  obtain ⟨htc, hfs, car1, hf1, hori1, hrow1, htarget⟩ := RushGame.init_some hg
  have hgt := RushGame.goal_test_eq hsb hcar
  rw [htc] at hcar0
  rw [hf1] at hcar0
  cases hcar0
  rw [hgt, htarget]
  simp

/-- Witness for C7 at the concrete game on exBoard1, tested on the initial
    state itself. -/
theorem C7_goal_test_iff_witness :
    RushGame.init exBoard1 colorRed = some exGame1 ∧
      Board.from_state exBoard1.get_state = some exBoard1 ∧
      exBoard1.findCar exGame1.target_car = some ⟨colorRed, 0, 0, 1, Orient.h⟩ ∧
      exGame1.initial.findCar exGame1.target_car = some ⟨colorRed, 0, 0, 1, Orient.h⟩ ∧
      (exGame1.goal_test exBoard1.get_state = some true ↔
        Car.position ⟨colorRed, 0, 0, 1, Orient.h⟩ =
          (exGame1.initial.exitrow, (exGame1.initial.size : Int) - ((1 : Nat) : Int))) :=
  ⟨by decide, by decide, by decide, by decide,
   C7_goal_test_iff exBoard1 colorRed exGame1 (by decide) exBoard1.get_state exBoard1
     ⟨colorRed, 0, 0, 1, Orient.h⟩ ⟨colorRed, 0, 0, 1, Orient.h⟩ (by decide) (by decide) (by decide)⟩

/-! Geometry lemmas for the neighbor-state invariant. -/

/-- Cell membership of a horizontal car as a coordinate interval. -/
theorem Car.mem_cells_h {c : Car} (hc : c.ori = Orient.h) {x : GridCell} :
    x ∈ c.cells ↔ x.1 = c.row ∧ c.col ≤ x.2 ∧ x.2 < c.col + (c.len : Int) := by
  have hcells : c.cells = (List.range c.len).map fun i : Nat => ((c.row, c.col + (i : Int)) : GridCell) := by
    unfold Car.cells
    rw [hc]
  rw [hcells]
  constructor
  · intro hx
    obtain ⟨i, hi, he⟩ := List.mem_map.mp hx
    rw [List.mem_range] at hi
    cases he
    refine ⟨rfl, ?_, ?_⟩ <;> dsimp only <;> omega
  · intro hx
    obtain ⟨h1, h2, h3⟩ := hx
    obtain ⟨x1, x2⟩ := x
    dsimp only at h1 h2 h3
    refine List.mem_map.mpr ⟨(x2 - c.col).toNat, List.mem_range.mpr (by omega), ?_⟩
    have hcc : c.col + (((x2 - c.col).toNat : Nat) : Int) = x2 := by omega
    rw [hcc, h1]

/-- Cell membership of a vertical car as a coordinate interval. -/
theorem Car.mem_cells_v {c : Car} (hc : c.ori = Orient.v) {x : GridCell} :
    x ∈ c.cells ↔ x.2 = c.col ∧ c.row ≤ x.1 ∧ x.1 < c.row + (c.len : Int) := by
  have hcells : c.cells = (List.range c.len).map fun i : Nat => ((c.row + (i : Int), c.col) : GridCell) := by
    unfold Car.cells
    rw [hc]
  rw [hcells]
  constructor
  · intro hx
    obtain ⟨i, hi, he⟩ := List.mem_map.mp hx
    rw [List.mem_range] at hi
    cases he
    refine ⟨rfl, ?_, ?_⟩ <;> dsimp only <;> omega
  · intro hx
    obtain ⟨h1, h2, h3⟩ := hx
    obtain ⟨x1, x2⟩ := x
    dsimp only at h1 h2 h3
    refine List.mem_map.mpr ⟨(x1 - c.row).toNat, List.mem_range.mpr (by omega), ?_⟩
    have hcc : c.row + (((x1 - c.row).toNat : Nat) : Int) = x1 := by omega
    rw [hcc, h1]

/-- In-bounds of a horizontal car via its two endpoints. -/
theorem Car.inBounds_h {c : Car} (hc : c.ori = Orient.h) (hlen : 1 ≤ c.len) {size : Nat} :
    c.InBounds size ↔
      0 ≤ c.row ∧ c.row < (size : Int) ∧ 0 ≤ c.col ∧ c.col + (c.len : Int) ≤ (size : Int) := by
  unfold Car.InBounds
  constructor
  · intro hb
    have h1 := hb (c.row, c.col) ((Car.mem_cells_h hc).mpr ⟨rfl, by omega, by omega⟩)
    have h2 := hb (c.row, c.col + (c.len : Int) - 1) ((Car.mem_cells_h hc).mpr ⟨rfl, by omega, by omega⟩)
    dsimp only at h1 h2
    obtain ⟨a1, a2, a3, a4⟩ := h1
    obtain ⟨b1, b2, b3, b4⟩ := h2
    exact ⟨a1, a2, a3, by omega⟩
  · rintro ⟨h1, h2, h3, h4⟩ x hx
    rw [Car.mem_cells_h hc] at hx
    obtain ⟨hx1, hx2, hx3⟩ := hx
    exact ⟨by omega, by omega, by omega, by omega⟩

/-- In-bounds of a vertical car via its two endpoints. -/
theorem Car.inBounds_v {c : Car} (hc : c.ori = Orient.v) (hlen : 1 ≤ c.len) {size : Nat} :
    c.InBounds size ↔
      0 ≤ c.col ∧ c.col < (size : Int) ∧ 0 ≤ c.row ∧ c.row + (c.len : Int) ≤ (size : Int) := by
  unfold Car.InBounds
  constructor
  · intro hb
    have h1 := hb (c.row, c.col) ((Car.mem_cells_v hc).mpr ⟨rfl, by omega, by omega⟩)
    have h2 := hb (c.row + (c.len : Int) - 1, c.col) ((Car.mem_cells_v hc).mpr ⟨rfl, by omega, by omega⟩)
    dsimp only at h1 h2
    obtain ⟨a1, a2, a3, a4⟩ := h1
    obtain ⟨b1, b2, b3, b4⟩ := h2
    exact ⟨a3, a4, a1, by omega⟩
  · rintro ⟨h1, h2, h3, h4⟩ x hx
    rw [Car.mem_cells_v hc] at hx
    obtain ⟨hx1, hx2, hx3⟩ := hx
    exact ⟨by omega, by omega, by omega, by omega⟩

/-- can_move with step -1 is the lower-boundary test. -/
theorem Car.can_move_neg {c : Car} {limit : Int} :
    c.can_move (-1) limit = true ↔ limit ≤ c.headIdx - 1 := by
  unfold Car.can_move
  rw [if_pos (by omega : (-1 : Int) < 0)]
  constructor
  · intro h
    have := of_decide_eq_true h
    omega
  · intro h
    exact decide_eq_true (by omega)

/-- can_move with step +1 is the upper-boundary test. -/
theorem Car.can_move_pos {c : Car} {limit : Int} :
    c.can_move 1 limit = true ↔ c.headIdx + (c.len : Int) < limit := by
  unfold Car.can_move Car.lastIdx
  rw [if_neg (by omega : ¬ (1 : Int) < 0)]
  constructor
  · intro h
    have := of_decide_eq_true h
    omega
  · intro h
    exact decide_eq_true (by omega)

/-- Moving does not change the orientation. -/
theorem Car.move_ori (c : Car) (d : Int) : (c.move d).ori = c.ori := by
  cases hc : c.ori <;> simp [Car.move, hc]

/-- Moving does not change the length. -/
theorem Car.move_len (c : Car) (d : Int) : (c.move d).len = c.len := by
  cases hc : c.ori <;> simp [Car.move, hc]

/-- Moving does not change the color. -/
theorem Car.move_color (c : Car) (d : Int) : (c.move d).color = c.color := by
  cases hc : c.ori <;> simp [Car.move, hc]

/-- Coordinates of a moved horizontal car. -/
theorem Car.move_proj_h {c : Car} (hc : c.ori = Orient.h) (d : Int) :
    (c.move d).row = c.row ∧ (c.move d).col = c.col + d := by
  simp [Car.move, hc]

/-- Coordinates of a moved vertical car. -/
theorem Car.move_proj_v {c : Car} (hc : c.ori = Orient.v) (d : Int) :
    (c.move d).row = c.row + d ∧ (c.move d).col = c.col := by
  simp [Car.move, hc]

/-- The headIdx of a horizontal car. -/
theorem Car.headIdx_h {c : Car} (hc : c.ori = Orient.h) : c.headIdx = c.col := by
  simp [Car.headIdx, hc]

/-- The headIdx of a vertical car. -/
theorem Car.headIdx_v {c : Car} (hc : c.ori = Orient.v) : c.headIdx = c.row := by
  simp [Car.headIdx, hc]

/-- A legal unit slide keeps the car within the board. -/
theorem Car.move_inBounds {c : Car} {size : Nat} (hb : c.InBounds size) (hlen : 1 ≤ c.len)
    {d limit : Int} (hm : c.can_move d limit = true)
    (hd : (d = -1 ∧ limit = 0) ∨ (d = 1 ∧ limit = (size : Int))) :
    (c.move d).InBounds size := by
  have hlen2 : 1 ≤ (c.move d).len := by rw [Car.move_len]; exact hlen
  cases hc : c.ori
  case h =>
    obtain ⟨hr, hcl⟩ := Car.move_proj_h hc d
    have hmo : (c.move d).ori = Orient.h := by rw [Car.move_ori, hc]
    rw [Car.inBounds_h hc hlen] at hb
    rw [Car.inBounds_h hmo hlen2, hr, hcl, Car.move_len]
    rcases hd with ⟨rfl, rfl⟩ | ⟨rfl, rfl⟩
    · rw [Car.can_move_neg, Car.headIdx_h hc] at hm
      obtain ⟨b1, b2, b3, b4⟩ := hb
      exact ⟨b1, b2, by omega, by omega⟩
    · rw [Car.can_move_pos, Car.headIdx_h hc] at hm
      obtain ⟨b1, b2, b3, b4⟩ := hb
      exact ⟨b1, b2, by omega, by omega⟩
  case v =>
    obtain ⟨hr, hcl⟩ := Car.move_proj_v hc d
    have hmo : (c.move d).ori = Orient.v := by rw [Car.move_ori, hc]
    rw [Car.inBounds_v hc hlen] at hb
    rw [Car.inBounds_v hmo hlen2, hr, hcl, Car.move_len]
    rcases hd with ⟨rfl, rfl⟩ | ⟨rfl, rfl⟩
    · rw [Car.can_move_neg, Car.headIdx_v hc] at hm
      obtain ⟨b1, b2, b3, b4⟩ := hb
      exact ⟨b1, b2, by omega, by omega⟩
    · rw [Car.can_move_pos, Car.headIdx_v hc] at hm
      obtain ⟨b1, b2, b3, b4⟩ := hb
      exact ⟨b1, b2, by omega, by omega⟩

/-- Every cell of the moved car is an old cell or the fresh cell. -/
theorem Car.cells_move_split {c : Car} {d : Int} (hd : d = -1 ∨ d = 1) {x : GridCell}
    (hx : x ∈ (c.move d).cells) : x ∈ c.cells ∨ x = c.freshCell d := by
  obtain ⟨x1, x2⟩ := x
  cases hc : c.ori
  case h =>
    have hmo : (c.move d).ori = Orient.h := by rw [Car.move_ori, hc]
    obtain ⟨hr, hcl⟩ := Car.move_proj_h hc d
    rw [Car.mem_cells_h hmo, hr, hcl, Car.move_len] at hx
    obtain ⟨hx1, hx2, hx3⟩ := hx
    have hfr : c.freshCell d =
        (if d < 0 then ((c.row, c.col + d) : GridCell) else (c.row, c.col + (c.len : Int) - 1 + d)) := by
      simp [Car.freshCell, hc]
    rcases hd with rfl | rfl
    · by_cases hxf : x2 = c.col - 1
      · right
        rw [hfr, if_pos (by omega : (-1 : Int) < 0)]
        exact Prod.ext hx1 (by omega)
      · left
        rw [Car.mem_cells_h hc]
        exact ⟨hx1, by omega, by omega⟩
    · by_cases hxf : x2 = c.col + (c.len : Int)
      · right
        rw [hfr, if_neg (by omega : ¬ (1 : Int) < 0)]
        exact Prod.ext hx1 (by omega)
      · left
        rw [Car.mem_cells_h hc]
        exact ⟨hx1, by omega, by omega⟩
  case v =>
    have hmo : (c.move d).ori = Orient.v := by rw [Car.move_ori, hc]
    obtain ⟨hr, hcl⟩ := Car.move_proj_v hc d
    rw [Car.mem_cells_v hmo, hr, hcl, Car.move_len] at hx
    obtain ⟨hx1, hx2, hx3⟩ := hx
    have hfr : c.freshCell d =
        (if d < 0 then ((c.row + d, c.col) : GridCell) else (c.row + (c.len : Int) - 1 + d, c.col)) := by
      simp [Car.freshCell, hc]
    rcases hd with rfl | rfl
    · by_cases hxf : x1 = c.row - 1
      · right
        rw [hfr, if_pos (by omega : (-1 : Int) < 0)]
        exact Prod.ext (by omega) hx1
      · left
        rw [Car.mem_cells_v hc]
        exact ⟨hx1, by omega, by omega⟩
    · by_cases hxf : x1 = c.row + (c.len : Int)
      · right
        rw [hfr, if_neg (by omega : ¬ (1 : Int) < 0)]
        exact Prod.ext (by omega) hx1
      · left
        rw [Car.mem_cells_v hc]
        exact ⟨hx1, by omega, by omega⟩

/-- When the occupancy check of connected_states passes, the fresh cell is
    unoccupied on the view. -/
theorem fresh_not_in_view {b : Board} {c : Car} (hcmem : c ∈ b.cars)
    (hview : b.ViewConsistent) {d : Int} (hd : d = -1 ∨ d = 1)
    (hchk : ((c.move d).cells.any fun x => b.viewFree x) = true) :
    c.freshCell d ∉ b.view := by
  obtain ⟨x0, hx0mem, hx0free⟩ := List.any_eq_true.mp hchk
  have hfree : x0 ∉ b.view := of_decide_eq_true (by simpa [Board.viewFree] using hx0free)
  rcases Car.cells_move_split hd hx0mem with hold | rfl
  · exact absurd (hview.2 c hcmem x0 hold) hfree
  · exact hfree

/-- After a checked slide, the moved car overlaps no other car. -/
theorem moved_car_disjoint {b : Board} {i : Nat} {c : Car} (hc : b.cars[i]? = some c)
    (hview : b.ViewConsistent) (hdisj : CarsOK b.cars)
    {d : Int} (hd : d = -1 ∨ d = 1)
    (hchk : ((c.move d).cells.any fun x => b.viewFree x) = true)
    {j : Nat} (hj : j < b.cars.length) (hne : j ≠ i) :
    Disj (c.move d) b.cars[j] ∧ Disj b.cars[j] (c.move d) := by
  have hi : i < b.cars.length := (List.getElem?_eq_some.mp hc).1
  have hci : b.cars[i] = c := (List.getElem?_eq_some.mp hc).2
  have hcmem : c ∈ b.cars := List.getElem?_mem hc
  have hjmem : b.cars[j] ∈ b.cars := List.getElem_mem hj
  have hfresh := fresh_not_in_view hcmem hview hd hchk
  have hdisj_ij : Disj c b.cars[j] := by
    have h2 := hdisj i hi j hj (fun he => hne he.symm)
    rw [hci] at h2
    exact h2
  constructor
  · intro x hx hx2
    rcases Car.cells_move_split hd hx with hold | rfl
    · exact hdisj_ij x hold hx2
    · exact hfresh (hview.2 _ hjmem _ hx2)
  · intro x hx hx2
    rcases Car.cells_move_split hd hx2 with hold | rfl
    · exact hdisj_ij x hold hx
    · exact hfresh (hview.2 _ hjmem _ hx)

/-- The car list after a checked slide is still pairwise non-overlapping. -/
theorem setCar_cars_ok {b : Board} {i : Nat} {c : Car} (hc : b.cars[i]? = some c)
    (hview : b.ViewConsistent) (hdisj : CarsOK b.cars)
    {d : Int} (hd : d = -1 ∨ d = 1)
    (hchk : ((c.move d).cells.any fun x => b.viewFree x) = true) :
    CarsOK (b.cars.set i (c.move d)) := by
  intro i2 hi2 j2 hj2 hne
  rw [List.length_set] at hi2 hj2
  rw [List.getElem_set, List.getElem_set]
  by_cases he1 : i = i2
  · subst he1
    rw [if_pos rfl, if_neg hne]
    exact (moved_car_disjoint hc hview hdisj hd hchk hj2 (fun he => hne he.symm)).1
  · rw [if_neg he1]
    by_cases he2 : i = j2
    · subst he2
      rw [if_pos rfl]
      exact (moved_car_disjoint hc hview hdisj hd hchk hi2 (fun he => he1 he.symm)).2
    · rw [if_neg he2]
      exact hdisj i2 hi2 j2 hj2 hne

/-- The car list after a legal slide is still in bounds. -/
theorem setCar_inBounds {b : Board} {i : Nat} {c : Car} (hc : b.cars[i]? = some c)
    (hbnd : ∀ c2 ∈ b.cars, c2.InBounds b.size) (hlen : ∀ c2 ∈ b.cars, 1 ≤ c2.len)
    {d limit : Int} (hm : c.can_move d limit = true)
    (hd : (d = -1 ∧ limit = 0) ∨ (d = 1 ∧ limit = (b.size : Int))) :
    ∀ c2 ∈ b.cars.set i (c.move d), c2.InBounds b.size := by
  intro c2 hc2
  rcases List.mem_or_eq_of_mem_set hc2 with hmem | rfl
  · exact hbnd c2 hmem
  · have hcmem : c ∈ b.cars := List.getElem?_mem hc
    exact Car.move_inBounds (hbnd c hcmem) (hlen c hcmem) hm hd

/-- Rebuilding the cars of a serialized car list gives the cars back. -/
theorem map_ofTuple_astuple (l : List Car) : (l.map Car.astuple).map Car.ofTuple = l := by
  induction l with
  | nil => rfl
  | cons c cs ih => simp only [List.map_cons, Car.ofTuple_astuple, ih]

/-- C2: on a board whose cars are in bounds, nonempty, pairwise disjoint and
    whose view is consistent, every state returned by connected_states
    describes a board whose cars are all in bounds and pairwise disjoint. -/
theorem C2_neighbor_states_inbounds_disjoint (b : Board)
    (hlen : ∀ c ∈ b.cars, 1 ≤ c.len)
    (hbnd : ∀ c ∈ b.cars, c.InBounds b.size)
    (hdisj : CarsOK b.cars)
    (hview : b.ViewConsistent) :
    ∀ s ∈ b.connected_states,
      s.size = b.size ∧ (∀ t ∈ s.cars, (Car.ofTuple t).InBounds s.size) ∧
        CarsOK (s.cars.map Car.ofTuple) := by
  intro s hs
  obtain ⟨i, hi, hms⟩ := Board.mem_connected_states.mp hs
  unfold Board.moveStates at hms
  have main : ∀ d limit : Int, ((d = -1 ∧ limit = 0) ∨ (d = 1 ∧ limit = (b.size : Int))) →
      s ∈ (b.tryMove i d limit).2 →
      s.size = b.size ∧ (∀ t ∈ s.cars, (Car.ofTuple t).InBounds s.size) ∧
        CarsOK (s.cars.map Car.ofTuple) := by
    intro d limit hdl hmem
    obtain ⟨c, hc, hcm, hchk, rfl⟩ := Board.mem_tryMove_snd.mp hmem
    have hd : d = -1 ∨ d = 1 := by
      rcases hdl with ⟨rfl, _⟩ | ⟨rfl, _⟩
      · exact Or.inl rfl
      · exact Or.inr rfl
    have hcars : (b.setCar i (c.move d)).get_state.cars.map Car.ofTuple = b.cars.set i (c.move d) := by
      show ((b.cars.set i (c.move d)).map Car.astuple).map Car.ofTuple = _
      rw [map_ofTuple_astuple]
    refine ⟨rfl, ?_, ?_⟩
    · intro t ht
      have hmem2 : Car.ofTuple t ∈ b.cars.set i (c.move d) := by
        rw [← hcars]
        exact List.mem_map_of_mem Car.ofTuple ht
      exact setCar_inBounds hc hbnd hlen hcm hdl _ hmem2
    · rw [hcars]
      exact setCar_cars_ok hc hview hdisj hd hchk
  rcases List.mem_append.mp hms with hmem | hmem
  · exact main (-1) 0 (Or.inl ⟨rfl, rfl⟩) hmem
  · exact main 1 (b.size : Int) (Or.inr ⟨rfl, rfl⟩) hmem

/-- Witness for C2 at the concrete board exBoard3. -/
theorem C2_neighbor_states_inbounds_disjoint_witness :
    (∀ c ∈ exBoard3.cars, 1 ≤ c.len) ∧ (∀ c ∈ exBoard3.cars, c.InBounds exBoard3.size) ∧
      CarsOK exBoard3.cars ∧ exBoard3.ViewConsistent ∧
      ∀ s ∈ exBoard3.connected_states,
        s.size = exBoard3.size ∧ (∀ t ∈ s.cars, (Car.ofTuple t).InBounds s.size) ∧
          CarsOK (s.cars.map Car.ofTuple) :=
  ⟨by decide, by decide, by decide, by decide,
   C2_neighbor_states_inbounds_disjoint exBoard3 (by decide) (by decide) (by decide) (by decide)⟩

/-! Lemmas about the breadth-first search loop. -/

/-- A goal child returned by the expansion loop is a fresh child of the
    dequeued node n: it satisfies the goal, costs one more than n, sits one
    layer deeper, and was in neither explored nor the frontier. -/
theorem expandChildren_inl {σ : Type} [DecidableEq σ] {G : σ → Bool} {E : List σ}
    {n child : SearchNode σ} :
    ∀ {cs : List σ} {fr : List (SearchNode σ)},
      expandChildren G E n cs fr = Sum.inl child →
      child.state ∈ cs ∧ G child.state = true ∧ child.path_cost = n.path_cost + 1 ∧
        child.depth = n.depth + 1 ∧ child.state ∉ E := by
  intro cs
  induction cs with
  | nil =>
    intro fr h
    cases h
  | cons c cs ih =>
    intro fr h
    unfold expandChildren at h
    by_cases h1 : c ∈ E ∨ c ∈ fr.map SearchNode.state
    · rw [if_pos h1] at h
      obtain ⟨a1, a2, a3, a4, a5⟩ := ih h
      exact ⟨List.mem_cons_of_mem _ a1, a2, a3, a4, a5⟩
    · rw [if_neg h1] at h
      by_cases h2 : G c = true
      · rw [if_pos h2] at h
        cases h
        push_neg at h1
        exact ⟨List.mem_cons_self c cs, h2, rfl, rfl, h1.1⟩
      · rw [if_neg h2] at h
        obtain ⟨a1, a2, a3, a4, a5⟩ := ih h
        exact ⟨List.mem_cons_of_mem _ a1, a2, a3, a4, a5⟩

/-- C8 counterexample: with max_depth 0 the root node, whose depth equals
    the cap, is dequeued and expanded, and the goal child generated during
    that expansion is returned as success: failure is not reported. -/
theorem C8_counterexample_goal_child_at_cap :
    exGame1.goalB exGame1.problem_initial = false ∧
      breadth_first_graph_search exGame1.actions exGame1.goalB 0 2 exGame1.problem_initial =
        some (BFSResult.found ⟨⟨2, 0, [(colorRed, (0, 1), 1, Orient.h)]⟩, 1, 1⟩) := by
  constructor
  · decide
  · decide

/-- C8 (amended): when the dequeued node's depth equals max_depth the search
    returns immediately after expanding that node, with any remaining fuel:
    either the failure value, or a goal child generated during that very
    expansion; no further node is dequeued. -/
theorem C8_depth_cap_aborts_after_expansion {σ : Type} [DecidableEq σ]
    (A : σ → List σ) (G : σ → Bool) (md : Nat) (n : SearchNode σ)
    (rest : List (SearchNode σ)) (E : List σ) (fuel : Nat)
    (h : n.depth = md) :
    bfsAux A G md (fuel + 1) (n :: rest) E = bfsAux A G md 1 (n :: rest) E ∧
      (bfsAux A G md (fuel + 1) (n :: rest) E = some (BFSResult.failure) ∨
        ∃ child, bfsAux A G md (fuel + 1) (n :: rest) E = some (BFSResult.found child) ∧
          G child.state = true ∧ child.depth = md + 1 ∧ child.state ∈ A n.state) := by
  cases hexp : expandChildren G (n.state :: E) n (A n.state) rest with
  | inl child =>
    obtain ⟨a1, a2, a3, a4, a5⟩ := expandChildren_inl hexp
    have hL : bfsAux A G md (fuel + 1) (n :: rest) E = some (BFSResult.found child) := by
      simp only [bfsAux, hexp]
    have hR : bfsAux A G md 1 (n :: rest) E = some (BFSResult.found child) := by
      simp only [bfsAux, hexp]
    rw [hL, hR]
    exact ⟨rfl, Or.inr ⟨child, rfl, a2, by rw [a4, h], a1⟩⟩
  | inr fr2 =>
    have hL : bfsAux A G md (fuel + 1) (n :: rest) E =
        if n.depth = md then some BFSResult.failure else bfsAux A G md fuel fr2 (n.state :: E) := by
      simp only [bfsAux, hexp]
    have hR : bfsAux A G md 1 (n :: rest) E =
        if n.depth = md then some BFSResult.failure else bfsAux A G md 0 fr2 (n.state :: E) := by
      simp only [bfsAux, hexp]
    rw [hL, hR, if_pos h, if_pos h]
    exact ⟨rfl, Or.inl rfl⟩

/-- Witness for the amended C8 on the concrete game exGame3 with cap 0. -/
theorem C8_depth_cap_aborts_after_expansion_witness :
    (SearchNode.depth ⟨exGame3.problem_initial, 0, 0⟩ = 0) ∧
      (bfsAux exGame3.actions exGame3.goalB 0 (1 + 1) [⟨exGame3.problem_initial, 0, 0⟩] [] =
          bfsAux exGame3.actions exGame3.goalB 0 1 [⟨exGame3.problem_initial, 0, 0⟩] [] ∧
        (bfsAux exGame3.actions exGame3.goalB 0 (1 + 1) [⟨exGame3.problem_initial, 0, 0⟩] [] =
            some (BFSResult.failure) ∨
          ∃ child, bfsAux exGame3.actions exGame3.goalB 0 (1 + 1) [⟨exGame3.problem_initial, 0, 0⟩] [] =
              some (BFSResult.found child) ∧
            exGame3.goalB child.state = true ∧ child.depth = 0 + 1 ∧
            child.state ∈ exGame3.actions (SearchNode.state ⟨exGame3.problem_initial, 0, 0⟩))) :=
  ⟨rfl, C8_depth_cap_aborts_after_expansion exGame3.actions exGame3.goalB 0
    ⟨exGame3.problem_initial, 0, 0⟩ [] [] 1 rfl⟩

/-- C5 counterexample: the frontier-exhaustion failure (packed board, cap
    500) and the depth-cap failure (cap 0) return the same single value
    False: the two outcomes are not distinct result values. -/
theorem C5_counterexample_same_failure_value :
    breadth_first_graph_search exGame2.actions exGame2.goalB 500 2 exGame2.problem_initial =
        some (BFSResult.failure) ∧
      breadth_first_graph_search exGame3.actions exGame3.goalB 0 1 exGame3.problem_initial =
        some (BFSResult.failure) := by
  constructor
  · decide
  · decide

/-- C5 (amended): every non-success return of the search loop is the one
    value False (BFSResult.failure): the depth-cap abort and the exhausted
    frontier are reported identically and cannot be told apart by the
    caller from the returned value. -/
theorem C5_failures_indistinguishable {σ : Type} [DecidableEq σ]
    (A : σ → List σ) (G : σ → Bool) (md fuel : Nat) (F : List (SearchNode σ))
    (E : List σ) (r : BFSResult σ)
    (h1 : bfsAux A G md fuel F E = some r)
    (h2 : ∀ nd, r ≠ BFSResult.found nd) :
    r = BFSResult.failure := by
  cases r with
  | found nd => exact absurd rfl (h2 nd)
  | failure => rfl

/-- Witness for the amended C5 on the packed game exGame2. -/
theorem C5_failures_indistinguishable_witness :
    bfsAux exGame2.actions exGame2.goalB 500 2 [⟨exGame2.problem_initial, 0, 0⟩] [] =
        some (BFSResult.failure) ∧
      (∀ nd : SearchNode BoardState, (BFSResult.failure : BFSResult BoardState) ≠ BFSResult.found nd) ∧
      (BFSResult.failure : BFSResult BoardState) = BFSResult.failure :=
  ⟨by decide, fun nd h => BFSResult.noConfusion h,
   C5_failures_indistinguishable exGame2.actions exGame2.goalB 500 2
     [⟨exGame2.problem_initial, 0, 0⟩] [] BFSResult.failure (by decide)
     (fun nd h => BFSResult.noConfusion h)⟩

/-- A path of length zero ends where it starts. -/
theorem Reaches.zero_eq {σ : Type} {A : σ → List σ} {r s : σ}
    (h : Reaches A r s 0) : s = r := by
  cases h
  rfl

/-- Extending a path by one step at the far end. -/
theorem Reaches.snoc {σ : Type} {A : σ → List σ} {r t u : σ} {n : Nat}
    (h : Reaches A r t n) (hu : u ∈ A t) : Reaches A r u (n + 1) := by
  induction h with
  | refl s => exact Reaches.step hu (Reaches.refl u)
  | step h1 h2 ih => exact Reaches.step h1 (ih hu)

/-- Removing the last step of a nonempty path. -/
theorem Reaches.snoc_inv {σ : Type} {A : σ → List σ} :
    ∀ {n : Nat} {r s : σ}, Reaches A r s (n + 1) → ∃ t, Reaches A r t n ∧ s ∈ A t := by
  intro n
  induction n with
  | zero =>
    intro r s h
    cases h with
    | step h1 h2 =>
      rw [h2.zero_eq]
      exact ⟨r, Reaches.refl r, h1⟩
  | succ m ih =>
    intro r s h
    cases h with
    | step h1 h2 =>
      obtain ⟨t, ht, hs⟩ := ih h2
      exact ⟨t, Reaches.step h1 ht, hs⟩

/-- Membership in the generic append-accumulating fold. -/
theorem mem_foldl_append {σ : Type} (A : σ → List σ) :
    ∀ (l : List σ) (init : List σ) (x : σ),
      x ∈ l.foldl (fun acc s => acc ++ A s) init ↔ x ∈ init ∨ ∃ s ∈ l, x ∈ A s := by
  intro l
  induction l with
  | nil => intro init x; simp
  | cons a as ih =>
    intro init x
    rw [List.foldl_cons, ih]
    constructor
    · rintro (hx | ⟨s, hs, hx⟩)
      · rcases List.mem_append.mp hx with hx | hx
        · exact Or.inl hx
        · exact Or.inr ⟨a, List.mem_cons_self a as, hx⟩
      · exact Or.inr ⟨s, List.mem_cons_of_mem a hs, hx⟩
    · rintro (hx | ⟨s, hs, hx⟩)
      · exact Or.inl (List.mem_append_left _ hx)
      · rcases List.mem_cons.mp hs with rfl | hs
        · exact Or.inl (List.mem_append_right _ hx)
        · exact Or.inr ⟨s, hs, hx⟩

/-- The reach lists are cumulative. -/
theorem reachList_mono_succ {σ : Type} (A : σ → List σ) (r : σ) (m : Nat) :
    reachList A r m ⊆ reachList A r (m + 1) := by
  intro x hx
  unfold reachList
  exact List.mem_append_left _ hx

/-- Monotonicity of the reach lists. -/
theorem reachList_mono {σ : Type} (A : σ → List σ) (r : σ) {m m2 : Nat} (h : m ≤ m2) :
    reachList A r m ⊆ reachList A r m2 := by
  induction m2 with
  | zero =>
    have : m = 0 := by omega
    subst this
    exact fun x hx => hx
  | succ k ih =>
    by_cases hm : m = k + 1
    · subst hm
      exact fun x hx => hx
    · have hk : m ≤ k := by omega
      exact fun x hx => reachList_mono_succ A r k (ih hk hx)

/-- Every state reachable in at most m steps appears in reachList m. -/
theorem mem_reachList_of_reaches {σ : Type} {A : σ → List σ} {r s : σ} :
    ∀ {k m : Nat}, Reaches A r s k → k ≤ m → s ∈ reachList A r m := by
  suffices H : ∀ (k : Nat) (s : σ), Reaches A r s k → s ∈ reachList A r k by
    intro k m hr hk
    exact reachList_mono A r hk (H k s hr)
  intro k
  induction k with
  | zero =>
    intro s hr
    rw [hr.zero_eq]
    exact List.mem_singleton.mpr rfl
  | succ j ih =>
    intro s hr
    obtain ⟨t, ht, hs⟩ := hr.snoc_inv
    have htm := ih t ht
    unfold reachList
    refine List.mem_append_right _ ?_
    exact (mem_foldl_append A (reachList A r j) [] s).mpr (Or.inr ⟨t, htm, hs⟩)

/-- A duplicate-free list of explored states fits inside the reach list. -/
theorem nodup_subset_length_le {σ : Type} [DecidableEq σ] {E L : List σ}
    (hnd : E.Nodup) (hsub : ∀ s ∈ E, s ∈ L) : E.length ≤ L.length := by
  have h1 : E.toFinset.card = E.length := List.toFinset_card_of_nodup hnd
  have h2 : E.toFinset ⊆ L.toFinset := by
    intro x hx
    rw [List.mem_toFinset] at hx
    rw [List.mem_toFinset]
    exact hsub x hx
  have h3 : L.toFinset.card ≤ L.length := L.toFinset_card_le
  have h4 := Finset.card_le_card h2
  omega

/-- Membership in the states of a frontier. -/
theorem mem_statesOf {σ : Type} {F : List (SearchNode σ)} {s : σ} :
    s ∈ statesOf F ↔ ∃ nd ∈ F, nd.state = s := by
  unfold statesOf
  exact List.mem_map

/-- statesOf distributes over append. -/
theorem statesOf_append {σ : Type} (F H : List (SearchNode σ)) :
    statesOf (F ++ H) = statesOf F ++ statesOf H := by
  unfold statesOf
  exact List.map_append SearchNode.state F H

/-- Everything the expansion loop guarantees when no goal child is found:
    the old frontier nodes are kept, new nodes are fresh non-goal children
    of n one layer deeper, every child of n ends up discovered, no explored
    or duplicated state enters, and sortedness and the layer bound hold. -/
theorem expandChildren_inr {σ : Type} [DecidableEq σ] {G : σ → Bool} {E2 : List σ}
    {n : SearchNode σ} :
    ∀ {cs : List σ} {fr F2 : List (SearchNode σ)},
      expandChildren G E2 n cs fr = Sum.inr F2 →
      (statesOf fr).Nodup →
      (∀ nd ∈ fr, nd.state ∉ E2) →
      fr.Pairwise (fun a b => a.depth ≤ b.depth) →
      (∀ nd ∈ fr, nd.depth ≤ n.depth + 1) →
      (∀ nd ∈ fr, nd ∈ F2) ∧
        (∀ nd ∈ F2, nd ∈ fr ∨
          (nd.path_cost = n.path_cost + 1 ∧ nd.depth = n.depth + 1 ∧ nd.state ∈ cs ∧
            G nd.state = false ∧ nd.state ∉ E2 ∧ nd.state ∉ statesOf fr)) ∧
        (∀ c ∈ cs, c ∈ E2 ∨ c ∈ statesOf F2) ∧
        (statesOf F2).Nodup ∧
        (∀ nd ∈ F2, nd.state ∉ E2) ∧
        F2.Pairwise (fun a b => a.depth ≤ b.depth) ∧
        (∀ nd ∈ F2, nd.depth ≤ n.depth + 1) := by
  intro cs
  induction cs with
  | nil =>
    intro fr F2 h hnodup hnotE hsor hbnd
    cases h
    exact ⟨fun nd hnd => hnd, fun nd hnd => Or.inl hnd, by simp, hnodup, hnotE, hsor, hbnd⟩
  | cons c cs ih =>
    intro fr F2 h hnodup hnotE hsor hbnd
    unfold expandChildren at h
    by_cases h1 : c ∈ E2 ∨ c ∈ fr.map SearchNode.state
    · rw [if_pos h1] at h
      obtain ⟨p1, p2, p3, p4, p5, p6, p7⟩ := ih h hnodup hnotE hsor hbnd
      refine ⟨p1, ?_, ?_, p4, p5, p6, p7⟩
      · intro nd hnd
        rcases p2 nd hnd with hin | ⟨a1, a2, a3, a4, a5, a6⟩
        · exact Or.inl hin
        · exact Or.inr ⟨a1, a2, List.mem_cons_of_mem c a3, a4, a5, a6⟩
      · intro c2 hc2
        rcases List.mem_cons.mp hc2 with rfl | hc2
        · rcases h1 with h1 | h1
          · exact Or.inl h1
          · right
            obtain ⟨nd, hnd, hnds⟩ := List.mem_map.mp h1
            exact mem_statesOf.mpr ⟨nd, p1 nd hnd, hnds⟩
        · exact p3 c2 hc2
    · rw [if_neg h1] at h
      by_cases h2 : G c = true
      · rw [if_pos h2] at h
        cases h
      · rw [if_neg h2] at h
        push_neg at h1
        have hnodup2 : (statesOf (fr ++ [⟨c, n.path_cost + 1, n.depth + 1⟩])).Nodup := by
          rw [statesOf_append, List.nodup_append]
          refine ⟨hnodup, by simp [statesOf], ?_⟩
          intro x hx hx2
          have : x = c := by
            simpa [statesOf] using hx2
          subst this
          exact h1.2 (by simpa [statesOf] using hx)
        have hnotE2 : ∀ nd ∈ fr ++ [⟨c, n.path_cost + 1, n.depth + 1⟩], nd.state ∉ E2 := by
          intro nd hnd
          rcases List.mem_append.mp hnd with hnd | hnd
          · exact hnotE nd hnd
          · rw [List.mem_singleton] at hnd
            subst hnd
            exact h1.1
        have hsor2 : (fr ++ [(⟨c, n.path_cost + 1, n.depth + 1⟩ : SearchNode σ)]).Pairwise
            (fun a b => a.depth ≤ b.depth) := by
          rw [List.pairwise_append]
          refine ⟨hsor, by simp, ?_⟩
          intro a ha b hb
          rw [List.mem_singleton] at hb
          subst hb
          exact hbnd a ha
        have hbnd2 : ∀ nd ∈ fr ++ [⟨c, n.path_cost + 1, n.depth + 1⟩], nd.depth ≤ n.depth + 1 := by
          intro nd hnd
          rcases List.mem_append.mp hnd with hnd | hnd
          · exact hbnd nd hnd
          · rw [List.mem_singleton] at hnd
            subst hnd
            exact Nat.le_refl _
        obtain ⟨p1, p2, p3, p4, p5, p6, p7⟩ := ih h hnodup2 hnotE2 hsor2 hbnd2
        refine ⟨?_, ?_, ?_, p4, p5, p6, p7⟩
        · intro nd hnd
          exact p1 nd (List.mem_append_left _ hnd)
        · intro nd hnd
          rcases p2 nd hnd with hin | ⟨a1, a2, a3, a4, a5, a6⟩
          · rcases List.mem_append.mp hin with hin | hin
            · exact Or.inl hin
            · rw [List.mem_singleton] at hin
              subst hin
              refine Or.inr ⟨rfl, rfl, List.mem_cons_self c cs, ?_, h1.1, ?_⟩
              · rw [← Bool.not_eq_true]
                exact h2
              · intro hmem
                exact h1.2 (by simpa [statesOf] using hmem)
          · refine Or.inr ⟨a1, a2, List.mem_cons_of_mem c a3, a4, a5, ?_⟩
            intro hmem
            refine a6 ?_
            rw [statesOf_append]
            exact List.mem_append_left _ hmem
        · intro c2 hc2
          rcases List.mem_cons.mp hc2 with rfl | hc2
          · right
            have hkmem : (⟨c2, n.path_cost + 1, n.depth + 1⟩ : SearchNode σ) ∈ F2 :=
              p1 _ (List.mem_append_right _ (List.mem_singleton.mpr rfl))
            exact mem_statesOf.mpr ⟨_, hkmem, rfl⟩
          · exact p3 c2 hc2

/-- The invariant holds for the initial configuration when the root is not
    itself a goal. -/
theorem bfsInv_initial {σ : Type} (A : σ → List σ) (G : σ → Bool) (md : Nat) (r : σ)
    (hroot : G r = false) : BfsInv A G md r [⟨r, 0, 0⟩] [] := by
  refine ⟨?_, ?_, ?_, ?_, ?_, ?_, ?_, ?_, ?_, ?_, ?_, ?_, ?_, ?_, ?_, ?_⟩
  · intro nd hnd
    rw [List.mem_singleton] at hnd
    subst hnd
    exact Reaches.refl r
  · intro nd hnd k hk
    rw [List.mem_singleton] at hnd
    subst hnd
    exact Nat.zero_le k
  · intro nd hnd
    rw [List.mem_singleton] at hnd
    subst hnd
    rfl
  · intro nd hnd
    rw [List.mem_singleton] at hnd
    subst hnd
    exact hroot
  · intro nd hnd
    rw [List.mem_singleton] at hnd
    subst hnd
    exact Nat.zero_le md
  · intro s hs
    cases hs
  · intro s hs
    cases hs
  · simp
  · intro h t hft nd hnd
    rw [List.mem_singleton] at hnd
    subst hnd
    cases hft
    simp
  · simp [statesOf]
  · exact List.nodup_nil
  · intro nd hnd
    simp
  · intro s hs
    cases hs
  · right
    simp [statesOf]
  · intro h t hft s k hr hk
    cases hft
    simp at hk
  · intro h t hft s k hr hk
    cases hft
    have hk0 : k = 0 := hk
    subst hk0
    right
    rw [hr.zero_eq]
    simp [statesOf]

/-- With the frontier empty, every reachable state has been explored. -/
theorem bfsInv_empty_explored {σ : Type} {A : σ → List σ} {G : σ → Bool} {md : Nat} {r : σ}
    {E : List σ} (hinv : BfsInv A G md r [] E) :
    ∀ k s, Reaches A r s k → s ∈ E := by
  intro k
  induction k with
  | zero =>
    intro s hr
    rw [hr.zero_eq]
    rcases hinv.root_in with h | h
    · exact h
    · simp [statesOf] at h
  | succ j ih =>
    intro s hr
    obtain ⟨t, ht, hs⟩ := hr.snoc_inv
    rcases hinv.closure t (ih t ht) s hs with h | h
    · exact h
    · simp [statesOf] at h

/-- While the frontier is nonempty, no goal is reachable within the head
    node's depth many moves. -/
theorem bfsInv_goal_far {σ : Type} {A : σ → List σ} {G : σ → Bool} {md : Nat} {r : σ}
    {n : SearchNode σ} {rest : List (SearchNode σ)} {E : List σ}
    (hinv : BfsInv A G md r (n :: rest) E) :
    ∀ g k, G g = true → Reaches A r g k → n.depth + 1 ≤ k := by
  intro g k hg hr
  by_contra hcon
  rcases Nat.lt_or_ge k n.depth with hlt | hge
  · have hE := hinv.layer_lt n rest rfl g k hr hlt
    have := hinv.e_nogoal g hE
    rw [this] at hg
    exact Bool.noConfusion hg
  · have hkeq : k = n.depth := by omega
    rcases hinv.layer_eq n rest rfl g k hr hkeq with hE | hF
    · have := hinv.e_nogoal g hE
      rw [this] at hg
      exact Bool.noConfusion hg
    · obtain ⟨nd, hnd, hnds⟩ := mem_statesOf.mp hF
      have := hinv.f_nogoal nd hnd
      rw [hnds] at this
      rw [this] at hg
      exact Bool.noConfusion hg

/-- One dequeue-and-expand step of the loop preserves the invariant when no
    goal child was found and the depth cap was not hit. -/
theorem bfsInv_step {σ : Type} [DecidableEq σ] {A : σ → List σ} {G : σ → Bool} {md : Nat} {r : σ}
    {n : SearchNode σ} {rest F2 : List (SearchNode σ)} {E : List σ}
    (hinv : BfsInv A G md r (n :: rest) E)
    (hexp : expandChildren G (n.state :: E) n (A n.state) rest = Sum.inr F2)
    (hdepth : n.depth ≠ md) :
    BfsInv A G md r F2 (n.state :: E) := by
  have hn : n ∈ n :: rest := List.mem_cons_self n rest
  have hnodupcons : (n.state :: statesOf rest).Nodup := hinv.f_nodup
  have htailnodup : (statesOf rest).Nodup := (List.nodup_cons.mp hnodupcons).2
  have hheadnot : n.state ∉ statesOf rest := (List.nodup_cons.mp hnodupcons).1
  have htailnotE : ∀ nd ∈ rest, nd.state ∉ n.state :: E := by
    intro nd hnd
    rw [List.mem_cons]
    push_neg
    constructor
    · intro he
      exact hheadnot (mem_statesOf.mpr ⟨nd, hnd, he⟩)
    · exact hinv.f_not_e nd (List.mem_cons_of_mem n hnd)
  have hpaircons := List.pairwise_cons.mp hinv.sorted_f
  have hheadle : ∀ nd ∈ rest, n.depth ≤ nd.depth := hpaircons.1
  have htailsor : rest.Pairwise (fun a b => a.depth ≤ b.depth) := hpaircons.2
  have htailbnd : ∀ nd ∈ rest, nd.depth ≤ n.depth + 1 := by
    intro nd hnd
    exact hinv.twolayer n rest rfl nd (List.mem_cons_of_mem n hnd)
  obtain ⟨p1, p2, p3, p4, p5, p6, p7⟩ :=
    expandChildren_inr hexp htailnodup htailnotE htailsor htailbnd
  have hkid_reach : ∀ nd ∈ F2, Reaches A r nd.state nd.depth := by
    intro nd hnd
    rcases p2 nd hnd with hin | ⟨a1, a2, a3, a4, a5, a6⟩
    · exact hinv.reach_depth nd (List.mem_cons_of_mem n hin)
    · rw [a2]
      exact (hinv.reach_depth n hn).snoc a3
  have hkid_min : ∀ nd ∈ F2, ∀ k, Reaches A r nd.state k → nd.depth ≤ k := by
    intro nd hnd k hk
    rcases p2 nd hnd with hin | ⟨a1, a2, a3, a4, a5, a6⟩
    · exact hinv.min_depth nd (List.mem_cons_of_mem n hin) k hk
    · rw [a2]
      by_contra hcon
      rcases Nat.lt_or_ge k n.depth with hlt | hge
      · have hE := hinv.layer_lt n rest rfl nd.state k hk hlt
        exact a5 (List.mem_cons_of_mem _ hE)
      · have hkeq : k = n.depth := by omega
        rcases hinv.layer_eq n rest rfl nd.state k hk hkeq with hE | hF
        · exact a5 (List.mem_cons_of_mem _ hE)
        · rcases mem_statesOf.mp hF with ⟨nd2, hnd2, hnds2⟩
          rcases List.mem_cons.mp hnd2 with rfl | hnd2
          · refine a5 ?_
            rw [← hnds2]
            exact List.mem_cons_self _ _
          · refine a6 ?_
            rw [← hnds2]
            exact mem_statesOf.mpr ⟨nd2, hnd2, rfl⟩
  have hF2ge : ∀ nd ∈ F2, n.depth ≤ nd.depth := by
    intro nd hnd
    rcases p2 nd hnd with hin | ⟨a1, a2, a3, a4, a5, a6⟩
    · exact hheadle nd hin
    · omega
  have hlt2 : ∀ h t, F2 = h :: t → ∀ s k, Reaches A r s k → k < h.depth → s ∈ n.state :: E := by
    intro h t hft s k hr2 hlt
    have hhmem : h ∈ F2 := by
      rw [hft]
      exact List.mem_cons_self h t
    have hhub : h.depth ≤ n.depth + 1 := p7 h hhmem
    rcases Nat.lt_or_ge k n.depth with hklt | hkge
    · exact List.mem_cons_of_mem _ (hinv.layer_lt n rest rfl s k hr2 hklt)
    · have hkeq : k = n.depth := by
        have := hF2ge h hhmem
        omega
      rcases hinv.layer_eq n rest rfl s k hr2 hkeq with hE | hF
      · exact List.mem_cons_of_mem _ hE
      · rcases mem_statesOf.mp hF with ⟨nd2, hnd2, hnds2⟩
        rcases List.mem_cons.mp hnd2 with rfl | hnd2
        · rw [← hnds2]
          exact List.mem_cons_self _ _
        · have hhd : n.depth < h.depth := by omega
          have hnd2F2 : nd2 ∈ F2 := p1 nd2 hnd2
          have hd2 : nd2.depth = n.depth := by
            have hreach2 : Reaches A r nd2.state k := by
              rw [hnds2]
              exact hr2
            have hle := hinv.min_depth nd2 (List.mem_cons_of_mem n hnd2) k hreach2
            have hge2 := hheadle nd2 hnd2
            omega
          have hnd2ht : nd2 ∈ h :: t := by
            rw [← hft]
            exact hnd2F2
          rcases List.mem_cons.mp hnd2ht with rfl | hnd2t
          · omega
          · have hsorht : (h :: t).Pairwise (fun a b => a.depth ≤ b.depth) := by
              rw [← hft]
              exact p6
            have := (List.pairwise_cons.mp hsorht).1 nd2 hnd2t
            omega
  have hclo2 : ∀ s ∈ n.state :: E, ∀ u ∈ A s, u ∈ n.state :: E ∨ u ∈ statesOf F2 := by
    intro s hs u hu
    rcases List.mem_cons.mp hs with rfl | hsE
    · exact p3 u hu
    · rcases hinv.closure s hsE u hu with h | h
      · exact Or.inl (List.mem_cons_of_mem _ h)
      · rcases mem_statesOf.mp h with ⟨nd2, hnd2, hnds2⟩
        rcases List.mem_cons.mp hnd2 with rfl | hnd2
        · refine Or.inl ?_
          rw [← hnds2]
          exact List.mem_cons_self _ _
        · exact Or.inr (mem_statesOf.mpr ⟨nd2, p1 nd2 hnd2, hnds2⟩)
  refine ⟨hkid_reach, hkid_min, ?_, ?_, ?_, ?_, ?_, p6, ?_, p4, ?_, p5, hclo2, ?_, hlt2, ?_⟩
  · intro nd hnd
    rcases p2 nd hnd with hin | ⟨a1, a2, a3, a4, a5, a6⟩
    · exact hinv.pc_eq nd (List.mem_cons_of_mem n hin)
    · rw [a1, a2, hinv.pc_eq n hn]
  · intro nd hnd
    rcases p2 nd hnd with hin | ⟨a1, a2, a3, a4, a5, a6⟩
    · exact hinv.f_nogoal nd (List.mem_cons_of_mem n hin)
    · exact a4
  · intro nd hnd
    rcases p2 nd hnd with hin | ⟨a1, a2, a3, a4, a5, a6⟩
    · exact hinv.f_bound nd (List.mem_cons_of_mem n hin)
    · have := hinv.f_bound n hn
      omega
  · intro s hs
    rcases List.mem_cons.mp hs with rfl | hsE
    · exact hinv.f_nogoal n hn
    · exact hinv.e_nogoal s hsE
  · intro s hs
    rcases List.mem_cons.mp hs with rfl | hsE
    · exact ⟨n.depth, hinv.reach_depth n hn, hinv.f_bound n hn⟩
    · exact hinv.e_reach s hsE
  · intro h t hft nd hnd
    have hhmem : h ∈ F2 := by
      rw [hft]
      exact List.mem_cons_self h t
    have h1 := p7 nd hnd
    have h2 := hF2ge h hhmem
    omega
  · rw [List.nodup_cons]
    exact ⟨hinv.f_not_e n hn, hinv.e_nodup⟩
  · rcases hinv.root_in with h | h
    · exact Or.inl (List.mem_cons_of_mem _ h)
    · rcases mem_statesOf.mp h with ⟨nd2, hnd2, hnds2⟩
      rcases List.mem_cons.mp hnd2 with rfl | hnd2
      · refine Or.inl ?_
        rw [← hnds2]
        exact List.mem_cons_self _ _
      · exact Or.inr (mem_statesOf.mpr ⟨nd2, p1 nd2 hnd2, hnds2⟩)
  · intro h t hft s k hr2 hkeq
    have hhmem : h ∈ F2 := by
      rw [hft]
      exact List.mem_cons_self h t
    have hge := hF2ge h hhmem
    have hub := p7 h hhmem
    rcases Nat.lt_or_ge n.depth h.depth with hgt | hle2
    · have hkval : k = n.depth + 1 := by omega
      have hr3 : Reaches A r s (n.depth + 1) := by
        rw [← hkval]
        exact hr2
      obtain ⟨t2, ht2, hs2⟩ := hr3.snoc_inv
      have ht2E : t2 ∈ n.state :: E := hlt2 h t hft t2 n.depth ht2 (by omega)
      exact hclo2 t2 ht2E s hs2
    · have hkeq2 : k = n.depth := by omega
      rcases hinv.layer_eq n rest rfl s k hr2 hkeq2 with hE | hF
      · exact Or.inl (List.mem_cons_of_mem _ hE)
      · rcases mem_statesOf.mp hF with ⟨nd2, hnd2, hnds2⟩
        rcases List.mem_cons.mp hnd2 with rfl | hnd2
        · refine Or.inl ?_
          rw [← hnds2]
          exact List.mem_cons_self _ _
        · exact Or.inr (mem_statesOf.mpr ⟨nd2, p1 nd2 hnd2, hnds2⟩)

/-- The main loop lemma: under the invariant, with enough fuel and a
    solution within the cap, bfsAux returns a goal node of minimal cost. -/
theorem bfsAux_finds_goal {σ : Type} [DecidableEq σ] (A : σ → List σ) (G : σ → Bool)
    (md : Nat) (r : σ)
    (hsol : ∃ g k, G g = true ∧ Reaches A r g k ∧ k ≤ md) :
    ∀ fuel F E, BfsInv A G md r F E →
      (reachList A r md).length + 1 ≤ fuel + E.length →
      ∃ nd, bfsAux A G md fuel F E = some (BFSResult.found nd) ∧ GoodNode A G r nd := by
  intro fuel
  induction fuel with
  | zero =>
    intro F E hinv hfuel
    exfalso
    have hsub : ∀ s ∈ E, s ∈ reachList A r md := by
      intro s hs
      obtain ⟨k, hk1, hk2⟩ := hinv.e_reach s hs
      exact mem_reachList_of_reaches hk1 hk2
    have := nodup_subset_length_le hinv.e_nodup hsub
    omega
  | succ fuel ih =>
    intro F E hinv hfuel
    cases F with
    | nil =>
      exfalso
      obtain ⟨g, k, hg, hreach, hk⟩ := hsol
      have hgE := bfsInv_empty_explored hinv k g hreach
      have := hinv.e_nogoal g hgE
      rw [this] at hg
      exact Bool.noConfusion hg
    | cons n rest =>
      cases hexp : expandChildren G (n.state :: E) n (A n.state) rest with
      | inl child =>
        obtain ⟨a1, a2, a3, a4, a5⟩ := expandChildren_inl hexp
        have heq : bfsAux A G md (fuel + 1) (n :: rest) E = some (BFSResult.found child) := by
          simp only [bfsAux, hexp]
        refine ⟨child, heq, ?_⟩
        unfold GoodNode
        refine ⟨a2, ?_, ?_, ?_⟩
        · rw [a3, a4, hinv.pc_eq n (List.mem_cons_self n rest)]
        · rw [a3, hinv.pc_eq n (List.mem_cons_self n rest)]
          exact (hinv.reach_depth n (List.mem_cons_self n rest)).snoc a1
        · intro g k hg hreach
          rw [a3, hinv.pc_eq n (List.mem_cons_self n rest)]
          exact bfsInv_goal_far hinv g k hg hreach
      | inr F2 =>
        by_cases hdepth : n.depth = md
        · exfalso
          obtain ⟨g, k, hg, hreach, hk⟩ := hsol
          have := bfsInv_goal_far hinv g k hg hreach
          omega
        · have hinv2 := bfsInv_step hinv hexp hdepth
          have hfuel2 : (reachList A r md).length + 1 ≤ fuel + (n.state :: E).length := by
            simp only [List.length_cons]
            omega
          obtain ⟨nd, hnd, hgood⟩ := ih F2 (n.state :: E) hinv2 hfuel2
          refine ⟨nd, ?_, hgood⟩
          have heq : bfsAux A G md (fuel + 1) (n :: rest) E = bfsAux A G md fuel F2 (n.state :: E) := by
            simp only [bfsAux, hexp]
            rw [if_neg hdepth]
          rw [heq]
          exact hnd

/-- C1: whenever some sequence of legal single-cell slides reaches a goal
    state within the depth cap, breadth_first_graph_search (with enough
    fuel, standing for the loop running to completion) returns a Node whose
    path_cost is realized by a move sequence and is minimal over all
    solutions; and if the initial state already satisfies goal_test, the
    root node with path_cost 0 is returned at once, for every fuel. -/
theorem C1_bfs_shortest_path (g : RushGame) (max_depth : Nat)
    (hsol : ∃ s k, g.goalB s = true ∧ Reaches g.actions g.problem_initial s k ∧ k ≤ max_depth) :
    (∃ fuel nd,
        breadth_first_graph_search g.actions g.goalB max_depth fuel g.problem_initial =
          some (BFSResult.found nd) ∧
        g.goalB nd.state = true ∧ nd.path_cost = nd.depth ∧
        Reaches g.actions g.problem_initial nd.state nd.path_cost ∧
        (∀ s k, g.goalB s = true → Reaches g.actions g.problem_initial s k → nd.path_cost ≤ k)) ∧
      (g.goalB g.problem_initial = true →
        ∀ fuel, breadth_first_graph_search g.actions g.goalB max_depth fuel g.problem_initial =
          some (BFSResult.found ⟨g.problem_initial, 0, 0⟩)) := by
  constructor
  · by_cases hroot : g.goalB g.problem_initial = true
    · refine ⟨0, ⟨g.problem_initial, 0, 0⟩, ?_, hroot, rfl, Reaches.refl _, ?_⟩
      · unfold breadth_first_graph_search
        rw [if_pos hroot]
      · intro s k _ _
        exact Nat.zero_le k
    · have hroot2 : g.goalB g.problem_initial = false := by
        rw [← Bool.not_eq_true]
        exact hroot
      have hres := bfsAux_finds_goal g.actions g.goalB max_depth g.problem_initial hsol
        ((reachList g.actions g.problem_initial max_depth).length + 1)
        [⟨g.problem_initial, 0, 0⟩] []
        (bfsInv_initial g.actions g.goalB max_depth g.problem_initial hroot2)
        (by simp)
      obtain ⟨nd, hnd, hgood⟩ := hres
      unfold GoodNode at hgood
      obtain ⟨g1, g2, g3, g4⟩ := hgood
      refine ⟨(reachList g.actions g.problem_initial max_depth).length + 1, nd, ?_, g1, g2, g3, g4⟩
      unfold breadth_first_graph_search
      rw [if_neg hroot]
      exact hnd
  · intro hroot fuel
    unfold breadth_first_graph_search
    rw [if_pos hroot]

/-- Witness for C1 on the concrete one-move game exGame1. -/
theorem C1_bfs_shortest_path_witness :
    (∃ s k, exGame1.goalB s = true ∧ Reaches exGame1.actions exGame1.problem_initial s k ∧ k ≤ 1) ∧
      ((∃ fuel nd,
          breadth_first_graph_search exGame1.actions exGame1.goalB 1 fuel exGame1.problem_initial =
            some (BFSResult.found nd) ∧
          exGame1.goalB nd.state = true ∧ nd.path_cost = nd.depth ∧
          Reaches exGame1.actions exGame1.problem_initial nd.state nd.path_cost ∧
          (∀ s k, exGame1.goalB s = true →
            Reaches exGame1.actions exGame1.problem_initial s k → nd.path_cost ≤ k)) ∧
        (exGame1.goalB exGame1.problem_initial = true →
          ∀ fuel, breadth_first_graph_search exGame1.actions exGame1.goalB 1 fuel
              exGame1.problem_initial =
            some (BFSResult.found ⟨exGame1.problem_initial, 0, 0⟩))) :=
  ⟨⟨⟨2, 0, [(colorRed, (0, 1), 1, Orient.h)]⟩, 1, by decide,
     Reaches.step (by decide) (Reaches.refl _), by omega⟩,
   C1_bfs_shortest_path exGame1 1
     ⟨⟨2, 0, [(colorRed, (0, 1), 1, Orient.h)]⟩, 1, by decide,
      Reaches.step (by decide) (Reaches.refl _), by omega⟩⟩
